import Mathlib

/-!
Verification development for the knowledge-graph construction pipeline
(`backend/app/kg_pipeline/kg_builder.py`).

Shallow embedding conventions:
* Python strings are Lean `String` (the ASCII fragment of `str.upper`,
  `str.isalnum` is modelled; all identifiers occurring in the pipeline are
  ASCII).
* Python `float` is modelled by `Rat`; the only arithmetic performed on
  `estimated_hours` is `* 0.7` and `max(1.0, _)`, which is exact on rationals.
* Python dicts keyed by strings are association lists (`List (String × α)`);
  insertion order is preserved, as in CPython.
* The LLM oracle is a parameter: for each expansion request it yields the
  list of per-attempt outcomes (`none` models an exception raised by
  `llm_call`, `some d` a successfully parsed JSON record).
* `datetime.now()` timestamps are not modelled (`created_at` is dropped);
  `time.sleep`, `tqdm`, `print` and file I/O (`save_cache`, `OUT_FILE`)
  have no effect on the values computed and are omitted.
-/

/-- The five difficulty levels (`DIFFICULTY_LEVELS` in `kg_builder.py`). -/
def DIFFICULTY_LEVELS : List String :=
  ["base", "level_1", "level_2", "level_3", "level_4"]

/-- A parsed oracle response (`data` in `expand_topic`).  Each field is
optional, modelling a JSON object in which the key may be absent
(`dict.get` with a default). -/
structure ExpansionData where
  subtopics : Option (List String)
  prerequisites : Option (List String)
  objectives : Option (List String)
  keywords : Option (List String)
  estimated_hours : Option Rat
  difficulty_level : Option String
deriving DecidableEq, Repr

/-- A topic node, as the dict built in `build_graph` (the `created_at`
wall-clock field is not modelled). -/
structure Node where
  code : String
  subject : String
  title : String
  description : String
  difficulty_level : String
  objectives : List String
  prerequisites : List String
  next_topics : List String
  keywords : List String
  estimated_hours : Rat
deriving DecidableEq, Repr

/-- A seed record (`kg_seed.json` entry): `subject` and `title` are
mandatory, the rest are read with `dict.get` defaults. -/
structure Seed where
  subject : String
  title : String
  code : Option String := none
  difficulty_level : Option String := none
  description : Option String := none
  objectives : Option (List String) := none
  prerequisites : Option (List String) := none
  keywords : Option (List String) := none
  estimated_hours : Option Rat := none
deriving DecidableEq, Repr

/-- Association-list lookup (Python `d[k]` / `k in d`). -/
def alistGet {α : Type} (l : List (String × α)) (k : String) : Option α :=
  match l with
  | [] => none
  | (k', v) :: rest => if k' = k then some v else alistGet rest k

/-- Association-list update (Python `d[k] = v`): replaces the existing
binding in place, otherwise appends, preserving CPython dict insertion
order. -/
def alistSet {α : Type} (l : List (String × α)) (k : String) (v : α) :
    List (String × α) :=
  match l with
  | [] => [(k, v)]
  | (k', v') :: rest =>
    if k' = k then (k', v) :: rest else (k', v') :: alistSet rest k v

/-- Keys of an association list, in insertion order. -/
def alistKeys {α : Type} (l : List (String × α)) : List String :=
  l.map Prod.fst

/-- The directed graph (`networkx.DiGraph`): a node list in insertion order
and an edge list `(u, v, relationship)` in insertion order. -/
structure DiGraph where
  nodes : List String
  edges : List (String × String × String)
deriving DecidableEq, Repr

/-- `G.add_node code` (idempotent, as in networkx). -/
def addNode (G : DiGraph) (v : String) : DiGraph :=
  if v ∈ G.nodes then G else { G with nodes := G.nodes ++ [v] }

/-- `G.has_edge(u, v)`. -/
def hasEdge (G : DiGraph) (u v : String) : Bool :=
  G.edges.any (fun e => e.1 = u ∧ e.2.1 = v)

/-- `G.add_edge(u, v, relationship=r)`.  In `kg_builder.py` every call is
guarded by `if not G.has_edge(u, v)`, so the overwrite branch of networkx
is never exercised; it is still modelled (replace the attribute). -/
def addEdge (G : DiGraph) (u v r : String) : DiGraph :=
  let G := addNode (addNode G u) v
  if hasEdge G u v then
    { G with edges := G.edges.map (fun e => if e.1 = u ∧ e.2.1 = v then (u, v, r) else e) }
  else
    { G with edges := G.edges ++ [(u, v, r)] }

/-- `G.remove_edge(u, v)`. -/
def removeEdge (G : DiGraph) (u v : String) : DiGraph :=
  { G with edges := G.edges.filter (fun e => ¬ (e.1 = u ∧ e.2.1 = v)) }

/-- Targets of `G.out_edges(code)`, in edge insertion order. -/
def outTargets (G : DiGraph) (code : String) : List String :=
  G.edges.filterMap (fun e => if e.1 = code then some e.2.1 else none)

/-- Sources of the `prerequisite_for`-labelled in-edges of `code`. -/
def prereqSources (G : DiGraph) (code : String) : List String :=
  G.edges.filterMap
    (fun e => if e.2.1 = code ∧ e.2.2 = "prerequisite_for" then some e.1 else none)

/-- Targets of the `leads_to`-labelled out-edges of `code`. -/
def leadsToTargets (G : DiGraph) (code : String) : List String :=
  G.edges.filterMap
    (fun e => if e.1 = code ∧ e.2.2 = "leads_to" then some e.2.1 else none)

/-- `generate_code(subject, title)` from `kg_builder.py`:
`subject[:3].upper() + "_" + normalized title`, where the title is
uppercased, spaces and hyphens become underscores (the single-character
`str.replace` calls are character maps), only alphanumerics and
underscores are kept, truncated to 40 characters. -/
def generate_code (subject title : String) : String :=
  let subjectPart := String.mk ((subject.toList.take 3).map Char.toUpper)
  let titleChars := title.toList.map Char.toUpper
  let titleChars := titleChars.map (fun c => if c = ' ' then '_' else c)
  let titleChars := titleChars.map (fun c => if c = '-' then '_' else c)
  let titlePart := String.mk ((titleChars.filter (fun c => c.isAlphanum ∨ c = '_')).take 40)
  subjectPart ++ "_" ++ titlePart

/-- The cache key `f"{subject}::{topic_name}::{current_level}"`. -/
def cacheKey (subject topic level : String) : String :=
  subject ++ "::" ++ topic ++ "::" ++ level

/-- The difficulty validation in `expand_topic` (lines 75-76): if
`data.get("difficulty_level")` is missing or not one of the five levels it
is overwritten with `current_level`. -/
def coerceDifficulty (data : ExpansionData) (current : String) : ExpansionData :=
  let ok : Bool := match data.difficulty_level with
    | some d => d ∈ DIFFICULTY_LEVELS
    | none => false
  if ok then data else { data with difficulty_level := some current }

/-- The retry loop of `expand_topic`: scan the per-attempt outcomes, up to
`fuel = max_retries + 1` attempts; return the first successful record
together with the number of oracle calls made.  A missing outcome (list
exhausted) models `llm_call` raising on that attempt. -/
def expandAttempts (outs : List (Option ExpansionData)) (fuel : Nat) :
    Option (ExpansionData × Nat) :=
  match fuel, outs with
  | 0, _ => none
  | _ + 1, [] => none
  | f + 1, o :: rest =>
    match o with
    | some d => some (d, 1)
    | none =>
      match expandAttempts rest f with
      | some (d, n) => some (d, n + 1)
      | none => none

/-- The oracle-response cache (`CACHE` in `kg_builder.py`). -/
abbrev Cache : Type := List (String × ExpansionData)

/-- `expand_topic(topic_name, subject, current_level, max_retries)` from
`kg_builder.py`.  Returns `none` when every attempt fails (the
`RuntimeError` raised after retry exhaustion); on success returns the
record, the updated cache and — as instrumentation for stating cache
properties — the number of oracle calls issued. -/
def expand_topic (cache : Cache) (topic subject level : String)
    (outs : List (Option ExpansionData)) (maxRetries : Nat) :
    Option (ExpansionData × Cache × Nat) :=
  let key := cacheKey subject topic level
  match alistGet cache key with
  | some d => some (d, cache, 0)
  | none =>
    match expandAttempts outs (maxRetries + 1) with
    | some (data, n) =>
      let data := coerceDifficulty data level
      some (data, alistSet cache key data, n)
    | none => none

/-- The oracle parameter: for a request `(topic, subject, current_level,
depth)` it yields the successive per-attempt outcomes of `llm_call`. -/
abbrev Oracle : Type := String → String → String → Nat → List (Option ExpansionData)

/-- The mutable state of `build_graph`: the networkx graph `G`, the dict
`nodes_map`, the set `processed` (as a list), the deque `q` of
`(code, depth_remaining, current_depth)` entries, the module-level `CACHE`,
and — instrumentation only — the list of codes for which `expand_topic`
was invoked. -/
structure BuildState where
  G : DiGraph
  nodes_map : List (String × Node)
  processed : List String
  q : List (String × Nat × Nat)
  cache : Cache
  expandedLog : List String
deriving DecidableEq, Repr

/-- The node dict built for a seed (lines 110-122 of `kg_builder.py`). -/
def seedNode (s : Seed) (code : String) : Node :=
  { code := code
    subject := s.subject
    title := s.title
    description := s.description.getD ""
    difficulty_level := s.difficulty_level.getD "base"
    objectives := s.objectives.getD []
    prerequisites := s.prerequisites.getD []
    next_topics := []
    keywords := s.keywords.getD []
    estimated_hours := s.estimated_hours.getD 3 }

/-- The node dict built for a discovered subtopic (lines 159-171). -/
def mkSubNode (subject subTitle parentTitle childDiff : String) (expHours : Rat)
    (parentCode : String) : Node :=
  { code := generate_code subject subTitle
    subject := subject
    title := subTitle
    description := "Subtopic of " ++ parentTitle
    difficulty_level := childDiff
    objectives := []
    prerequisites := [parentCode]
    next_topics := []
    keywords := []
    estimated_hours := max 1 (expHours * (7 / 10)) }

/-- The node dict built for a discovered prerequisite (lines 190-202). -/
def mkPreNode (subject preTitle parentTitle preLevel : String)
    (parentCode : String) : Node :=
  { code := generate_code subject preTitle
    subject := subject
    title := preTitle
    description := "Prerequisite for " ++ parentTitle
    difficulty_level := preLevel
    objectives := []
    prerequisites := []
    next_topics := [parentCode]
    keywords := []
    estimated_hours := 3 / 2 }

/-- Creation of a newly discovered node: insert the node dict, the
paired `G.add_node`, and the queue append (`q.append((code, depth_remaining - 1,
current_depth + 1))` is applied by the caller with the decremented depth). -/
def createStep (c : String) (nd : Node) (dr cd : Nat) (s : BuildState) : BuildState :=
  { s with
    nodes_map := alistSet s.nodes_map c nd
    G := addNode s.G c
    q := s.q ++ [(c, dr, cd)] }

/-- The guarded edge insertion `if not G.has_edge(u, v): G.add_edge(u, v,
relationship=r)` used for both edge types. -/
def edgeGuard (u v r : String) (s : BuildState) : BuildState :=
  if hasEdge s.G u v = true then s else { s with G := addEdge s.G u v r }

/-- One iteration of the subtopic loop of `build_graph` (lines 153-177,
body after the budget check): create the node if its code is new
(enqueueing it with decremented depth), then add the `leads_to` edge if
absent. -/
def subStep (code subject title childDiff : String) (expHours : Rat)
    (dr cd : Nat) (t : String) (s : BuildState) : BuildState :=
  let subCode := generate_code subject t
  match alistGet s.nodes_map subCode with
  | none =>
    edgeGuard code subCode "leads_to"
      (createStep subCode (mkSubNode subject t title childDiff expHours code)
        (dr - 1) (cd + 1) s)
  | some _ => edgeGuard code subCode "leads_to" s

/-- The subtopic loop of `build_graph` (lines 153-177): for each returned
subtopic title, break once the node budget is reached, otherwise run
`subStep`. -/
def subLoop (maxNodes : Nat) (code subject title childDiff : String)
    (expHours : Rat) (depthRem curDepth : Nat) :
    List String → BuildState → BuildState
  | [], s => s
  | subTitle :: rest, s =>
    if s.nodes_map.length ≥ maxNodes then s
    else
      subLoop maxNodes code subject title childDiff expHours depthRem curDepth
        rest (subStep code subject title childDiff expHours depthRem curDepth subTitle s)

/-- One iteration of the prerequisite loop of `build_graph` (lines
180-208, body after the budget check).  When a new node must be created,
Python evaluates `DIFFICULTY_LEVELS.index(child_difficulty)`, which raises
`ValueError` if `child_difficulty` is not one of the five levels; the
returned flag is `false` in that case (exception propagates to the main
loop's `except`, abandoning the remaining iterations while keeping all
mutations so far). -/
def preStep (code subject title childDiff : String) (dr cd : Nat)
    (t : String) (s : BuildState) : BuildState × Bool :=
  let preCode := generate_code subject t
  match alistGet s.nodes_map preCode with
  | none =>
    if childDiff ∈ DIFFICULTY_LEVELS then
      let preLevel :=
        DIFFICULTY_LEVELS.getD (DIFFICULTY_LEVELS.indexOf childDiff - 1) "base"
      (edgeGuard preCode code "prerequisite_for"
        (createStep preCode (mkPreNode subject t title preLevel code)
          (dr - 1) (cd + 1) s), true)
    else (s, false)
  | some _ => (edgeGuard preCode code "prerequisite_for" s, true)

/-- The prerequisite loop of `build_graph` (lines 180-208): for each
returned prerequisite title, break once the budget is reached, otherwise
run `preStep`, stopping early if it signalled the `ValueError`. -/
def preLoop (maxNodes : Nat) (code subject title childDiff : String)
    (depthRem curDepth : Nat) :
    List String → BuildState → BuildState
  | [], s => s
  | preTitle :: rest, s =>
    if s.nodes_map.length ≥ maxNodes then s
    else
      match preStep code subject title childDiff depthRem curDepth preTitle s with
      | (s1, true) =>
        preLoop maxNodes code subject title childDiff depthRem curDepth rest s1
      | (s1, false) => s1

/-- Processing of one queue entry after the `processed`/depth guards
(lines 136-214): call `expand_topic`, on failure keep the state (except
branch: `continue`); on success update the popped node's fields, then run
the subtopic and prerequisite loops. -/
def stepEntry (oracle : Oracle) (maxNodes : Nat) (code : String)
    (depthRem curDepth : Nat) (s : BuildState) : BuildState :=
  match alistGet s.nodes_map code with
  | none => s
  | some node =>
    let outs := oracle node.title node.subject node.difficulty_level (curDepth + 1)
    let s := { s with expandedLog := s.expandedLog ++ [code] }
    match expand_topic s.cache node.title node.subject node.difficulty_level outs 2 with
    | none => s
    | some (expansion, cache', _) =>
      let node' :=
        { node with
          objectives := expansion.objectives.getD node.objectives
          keywords := expansion.keywords.getD node.keywords
          estimated_hours := expansion.estimated_hours.getD node.estimated_hours }
      let s := { s with cache := cache', nodes_map := alistSet s.nodes_map code node' }
      let childDiff := expansion.difficulty_level.getD node.difficulty_level
      let expHours := expansion.estimated_hours.getD 2
      let s := subLoop maxNodes code node.subject node.title childDiff expHours
        depthRem curDepth (expansion.subtopics.getD []) s
      preLoop maxNodes code node.subject node.title childDiff
        depthRem curDepth (expansion.prerequisites.getD []) s

/-- The main `while q and len(nodes_map) < max_nodes` loop (lines 130-214),
fuelled; `initFuel` below supplies enough fuel for the loop to reach its
exit condition.  A popped entry whose code is already processed or whose
remaining depth is zero is skipped (`continue`). -/
def buildLoop (oracle : Oracle) (maxNodes : Nat) :
    Nat → BuildState → BuildState
  | 0, s => s
  | fuel + 1, s =>
    match s.q with
    | [] => s
    | (code, depthRem, curDepth) :: rest =>
      if s.nodes_map.length ≥ maxNodes then s
      else
        let s := { s with q := rest }
        if code ∈ s.processed ∨ depthRem = 0 then
          buildLoop oracle maxNodes fuel s
        else
          let s := { s with processed := s.processed ++ [code] }
          buildLoop oracle maxNodes fuel (stepEntry oracle maxNodes code depthRem curDepth s)

/-- Initial state of `build_graph` (lines 98-128): seed nodes inserted in
order, the queue holding one entry per seed code with the configured
recursive depth. -/
def initState (seeds : List Seed) (recursiveDepth : Nat) (cache0 : Cache) :
    BuildState :=
  let s0 : BuildState :=
    { G := ⟨[], []⟩, nodes_map := [], processed := [], q := []
      cache := cache0, expandedLog := [] }
  let s1 := seeds.foldl
    (fun s seed =>
      let code :=
        match seed.code with
        | some c => if c = "" then generate_code seed.subject seed.title else c
        | none => generate_code seed.subject seed.title
      { s with
        nodes_map := alistSet s.nodes_map code (seedNode seed code)
        G := addNode s.G code }) s0
  { s1 with q := (alistKeys s1.nodes_map).map (fun c => (c, recursiveDepth, 0)) }

/-- Fuel bound for the main loop: each iteration pops one entry, and a new
entry is pushed only together with a node creation under the budget, so
`|q| + (max_nodes - |nodes_map|)` strictly decreases per iteration. -/
def initFuel (maxNodes : Nat) (s : BuildState) : Nat :=
  s.q.length + (maxNodes - s.nodes_map.length)

/-- The expansion phase of `build_graph`: initial state followed by the
main loop, before edge reconciliation and cycle removal. -/
def expandPhase (oracle : Oracle) (seeds : List Seed)
    (recursiveDepth maxNodes : Nat) (cache0 : Cache) : BuildState :=
  let s0 := initState seeds recursiveDepth cache0
  buildLoop oracle maxNodes (initFuel maxNodes s0) s0

/-- The per-node reconciliation transform (lines 220-229): `next_topics`
is set to the targets of all out-edges (whatever their relationship), and,
when the node has `prerequisite_for` in-edges, `prerequisites` becomes
`list(set(old + in_sources))` — a set union, modelled by `List.dedup` of
the concatenation (CPython set iteration order is unspecified; every
property stated about this list is membership-based). -/
def reconcileTransform (G : DiGraph) (code : String) (node : Node) : Node :=
  let node := { node with next_topics := outTargets G code }
  let prereqs := prereqSources G code
  if prereqs ≠ [] then
    { node with prerequisites := (node.prerequisites ++ prereqs).dedup }
  else node

/-- Reconciliation of one node: look it up and store the transformed
record (`nodes_map[node_code]` mutation). -/
def reconcileNode (G : DiGraph) (nm : List (String × Node)) (code : String) :
    List (String × Node) :=
  match alistGet nm code with
  | none => nm
  | some node => alistSet nm code (reconcileTransform G code node)

/-- The edge-reconciliation pass (`for node_code in G.nodes`, lines
219-229). -/
def reconcile (G : DiGraph) (nm : List (String × Node)) : List (String × Node) :=
  G.nodes.foldl (fun nm code => reconcileNode G nm code) nm

/-- All ways of inserting an element into a list (used to enumerate
permutations structurally, so that cycle enumeration evaluates inside the
kernel). -/
def insertEverywhere {α : Type} (a : α) : List α → List (List α)
  | [] => [[a]]
  | x :: xs => (a :: x :: xs) :: (insertEverywhere a xs).map (fun l => x :: l)

/-- All permutations of a list, by structural recursion. -/
def perms {α : Type} : List α → List (List α)
  | [] => [[]]
  | x :: xs => (perms xs).flatMap (insertEverywhere x)

/-- Does the vertex sequence `c` trace a directed cycle of `G`
(`v0 → v1 → ⋯ → vk → v0`)?  The empty sequence is not a cycle. -/
def isCycleList (G : DiGraph) (c : List String) : Bool :=
  match c with
  | [] => false
  | v :: rest => ((v :: rest).zip (rest ++ [v])).all (fun p => hasEdge G p.1 p.2)

/-- Does `c` start at its member of minimal index in `G.nodes`?  This is
the rotation in which Johnson's algorithm (networkx `simple_cycles`)
reports a cycle: each cycle is rooted at its smallest node in the
iteration order. -/
def canonicalStart (G : DiGraph) (c : List String) : Bool :=
  match c with
  | [] => true
  | v :: _ => c.all (fun x => G.nodes.indexOf v ≤ G.nodes.indexOf x)

/-- `list(nx.simple_cycles(G))`: every simple directed cycle (duplicate-free
vertex sequence tracing a cycle, self-loops included as `[v]`), each
reported once, in the canonical rotation.  Computed by brute force over
duplicate-free sequences of nodes. -/
def simpleCycles (G : DiGraph) : List (List String) :=
  (G.nodes.sublists.flatMap perms).filter
    (fun c => c.Nodup ∧ isCycleList G c ∧ canonicalStart G c)

/-- `nx.is_directed_acyclic_graph(G)`: no simple cycle exists (a graph has
a directed cycle iff it has a simple one). -/
def is_directed_acyclic_graph (G : DiGraph) : Bool :=
  simpleCycles G = []

/-- One step of the cycle-removal loop (lines 238-244): for a cycle of
length > 1, remove the closing edge `cycle[-1] → cycle[0]` if still
present. -/
def removeClosingEdge (G : DiGraph) (c : List String) : DiGraph :=
  if c.length > 1 then
    let u := c.getLast?.getD ""
    let v := c.headD ""
    if hasEdge G u v then removeEdge G u v else G
  else G

/-- The cycle-resolution pass (lines 231-250): if the graph is not acyclic,
enumerate all simple cycles once and remove each cycle's closing edge. -/
def resolveCycles (G : DiGraph) : DiGraph :=
  if is_directed_acyclic_graph G then G
  else (simpleCycles G).foldl removeClosingEdge G

/-- `build_graph(seed_nodes, recursive_depth, max_nodes)`: expansion phase,
edge reconciliation (on the pre-resolution graph, as in the source), cycle
resolution, and the returned pair `(G, final_nodes)` where `final_nodes`
is `list(nodes_map.values())` after reconciliation. -/
def build_graph (oracle : Oracle) (seeds : List Seed)
    (recursiveDepth maxNodes : Nat) (cache0 : Cache) : DiGraph × List Node :=
  let st := expandPhase oracle seeds recursiveDepth maxNodes cache0
  let nm := reconcile st.G st.nodes_map
  let Gfinal := resolveCycles st.G
  (Gfinal, nm.map Prod.snd)

theorem alistGet_set_self {α : Type} (l : List (String × α)) (k : String) (v : α) :
    alistGet (alistSet l k v) k = some v := by
  induction l with
  | nil => simp [alistSet, alistGet]
  | cons p rest ih =>
    obtain ⟨k', v'⟩ := p
    by_cases h : k' = k
    · simp [alistSet, alistGet, h]
    · simp [alistSet, alistGet, h, ih]

theorem alistGet_set_ne {α : Type} (l : List (String × α)) (k k' : String) (v : α)
    (h : k ≠ k') : alistGet (alistSet l k v) k' = alistGet l k' := by
  induction l with
  | nil => simp [alistSet, alistGet, h]
  | cons p rest ih =>
    obtain ⟨k₀, v₀⟩ := p
    by_cases h₀ : k₀ = k
    · subst h₀
      simp [alistSet, alistGet, h]
    · simp [alistSet, alistGet, h₀, ih]

theorem alistGet_eq_none_iff {α : Type} (l : List (String × α)) (k : String) :
    alistGet l k = none ↔ k ∉ alistKeys l := by
  induction l with
  | nil => simp [alistGet, alistKeys]
  | cons p rest ih =>
    obtain ⟨k₀, v₀⟩ := p
    by_cases h₀ : k₀ = k
    · simp [alistGet, alistKeys, h₀]
    · simp [alistGet, alistKeys, h₀, ih]
      intro h
      exact fun hk => h₀ hk.symm

theorem mem_alistKeys_iff {α : Type} (l : List (String × α)) (k : String) :
    k ∈ alistKeys l ↔ ∃ v, (k, v) ∈ l := by
  constructor
  · intro h
    rcases List.mem_map.mp h with ⟨p, hp, he⟩
    exact ⟨p.2, by rw [← he]; exact hp⟩
  · rintro ⟨v, hv⟩
    exact List.mem_map.mpr ⟨(k, v), hv, rfl⟩

theorem alistKeys_cons {α : Type} (k₀ : String) (v₀ : α) (rest : List (String × α)) :
    alistKeys ((k₀, v₀) :: rest) = k₀ :: alistKeys rest := rfl

theorem alistKeys_set_mem {α : Type} (l : List (String × α)) (k : String) (v : α)
    (h : k ∈ alistKeys l) : alistKeys (alistSet l k v) = alistKeys l := by
  induction l with
  | nil => simp [alistKeys] at h
  | cons p rest ih =>
    obtain ⟨k₀, v₀⟩ := p
    rw [alistKeys_cons] at h
    by_cases h₀ : k₀ = k
    · simp [alistSet, h₀, alistKeys_cons]
    · rcases List.mem_cons.mp h with h | h
      · exact absurd h.symm h₀
      · simp [alistSet, h₀, alistKeys_cons, ih h]

theorem alistKeys_set_new {α : Type} (l : List (String × α)) (k : String) (v : α)
    (h : k ∉ alistKeys l) : alistKeys (alistSet l k v) = alistKeys l ++ [k] := by
  induction l with
  | nil => simp [alistSet, alistKeys]
  | cons p rest ih =>
    obtain ⟨k₀, v₀⟩ := p
    rw [alistKeys_cons] at h
    have h₀ : k₀ ≠ k := fun he => h (by rw [he]; exact List.mem_cons_self _ _)
    have hrest : k ∉ alistKeys rest := fun he => h (List.mem_cons_of_mem _ he)
    simp [alistSet, h₀, alistKeys_cons, ih hrest]

theorem alistSet_length_mem {α : Type} (l : List (String × α)) (k : String) (v : α)
    (h : k ∈ alistKeys l) : (alistSet l k v).length = l.length := by
  have hk := alistKeys_set_mem l k v h
  have h1 : (alistSet l k v).length = (alistKeys (alistSet l k v)).length := by
    simp [alistKeys]
  have h2 : l.length = (alistKeys l).length := by simp [alistKeys]
  rw [h1, hk, ← h2]

theorem alistSet_length_new {α : Type} (l : List (String × α)) (k : String) (v : α)
    (h : k ∉ alistKeys l) : (alistSet l k v).length = l.length + 1 := by
  have hk := alistKeys_set_new l k v h
  have h1 : (alistSet l k v).length = (alistKeys (alistSet l k v)).length := by
    simp [alistKeys]
  have h2 : l.length = (alistKeys l).length := by simp [alistKeys]
  rw [h1, hk]
  simp [← h2]

theorem alistKeys_set_nodup {α : Type} (l : List (String × α)) (k : String) (v : α)
    (h : (alistKeys l).Nodup) : (alistKeys (alistSet l k v)).Nodup := by
  by_cases hk : k ∈ alistKeys l
  · rw [alistKeys_set_mem l k v hk]; exact h
  · rw [alistKeys_set_new l k v hk]
    simp [List.nodup_append, h, hk]

theorem mem_of_alistGet_eq_some {α : Type} {l : List (String × α)} {k : String}
    {v : α} (h : alistGet l k = some v) : (k, v) ∈ l := by
  induction l with
  | nil => simp [alistGet] at h
  | cons p rest ih =>
    obtain ⟨k₀, v₀⟩ := p
    by_cases h₀ : k₀ = k
    · subst h₀
      simp [alistGet] at h
      simp [h]
    · simp [alistGet, h₀] at h
      simp [ih h]

theorem alistGet_of_mem {α : Type} {l : List (String × α)} {k : String} {v : α}
    (hN : (alistKeys l).Nodup) (h : (k, v) ∈ l) : alistGet l k = some v := by
  induction l with
  | nil => simp at h
  | cons p rest ih =>
    obtain ⟨k₀, v₀⟩ := p
    rw [alistKeys_cons, List.nodup_cons] at hN
    rcases List.mem_cons.mp h with h | h
    · rw [Prod.mk.injEq] at h
      obtain ⟨h1, h2⟩ := h
      subst h1
      subst h2
      simp [alistGet]
    · have hk₀ : k₀ ≠ k := by
        intro he
        subst he
        exact hN.1 (mem_alistKeys_iff rest k₀ |>.mpr ⟨v, h⟩)
      simp [alistGet, hk₀, ih hN.2 h]

theorem snd_mem_of_mem_alist {α : Type} {l : List (String × α)} {v : α}
    (h : v ∈ l.map Prod.snd) : ∃ k, (k, v) ∈ l := by
  rcases List.mem_map.mp h with ⟨p, hp, he⟩
  exact ⟨p.1, by rw [← he]; exact hp⟩

/-- Modelled from the spec's words (§4.2 / claim C5), for the refinement
comparison with `generate_code`: a fixed-length (3) uppercase prefix of
the subject, an underscore, and the title uppercased with spaces and
hyphens replaced by underscores, restricted to alphanumerics and
underscores, truncated to the fixed maximum length 40. -/
def generate_code_spec (subject title : String) : String :=
  let pre := String.mk ((subject.toList.map Char.toUpper).take 3)
  let t := title.toList.map
    (fun c => if Char.toUpper c = ' ' ∨ Char.toUpper c = '-' then '_' else Char.toUpper c)
  let norm := String.mk ((t.filter (fun c => c.isAlphanum ∨ c = '_')).take 40)
  pre ++ "_" ++ norm

/-- Test-fixture pairs for the code generator, taken from the repository's
prompt template (line 47 of `kg_builder.py` names mechanics,
thermodynamics, electromagnetism, optics and modern physics as the Physics
subtopics) together with the spec's Scenario A seed. -/
def codeFixturePairs : List (String × String) :=
  [("Physics", "Mechanics"), ("Physics", "Thermodynamics"),
   ("Physics", "Electromagnetism"), ("Physics", "Optics"),
   ("Physics", "Modern Physics")]

/-- C5: `generate_code` is a pure deterministic function of
`(subject, title)` (repeated calls agree), its value is exactly the
spec-described shape — fixed-length uppercase subject prefix, underscore,
and the normalized truncated title — and distinct pairs from the test
fixtures receive pairwise distinct codes. -/
theorem c5_generate_code_deterministic :
    (∀ subject title : String,
      generate_code subject title = generate_code subject title) ∧
    (∀ subject title : String,
      generate_code subject title = generate_code_spec subject title) ∧
    (codeFixturePairs.map (fun p => generate_code p.1 p.2)).Nodup := by
  refine ⟨fun _ _ => rfl, fun subject title => ?_, by decide⟩
  have hsub : (subject.toList.take 3).map Char.toUpper
      = (subject.toList.map Char.toUpper).take 3 := by
    rw [List.map_take]
  have httl : ((title.toList.map Char.toUpper).map
        (fun c => if c = ' ' then '_' else c)).map
        (fun c => if c = '-' then '_' else c)
      = title.toList.map
        (fun c => if Char.toUpper c = ' ' ∨ Char.toUpper c = '-' then '_'
          else Char.toUpper c) := by
    rw [List.map_map, List.map_map]
    apply List.map_congr_left
    intro c _
    by_cases h1 : Char.toUpper c = ' ' <;> by_cases h2 : Char.toUpper c = '-' <;>
      simp [Function.comp, h1, h2]
  simp only [generate_code, generate_code_spec, hsub, httl]

/-- The difficulty-validity predicate: the record carries one of the five
enumerated difficulty values. -/
def validDifficulty (d : ExpansionData) : Prop :=
  d.difficulty_level.getD "" ∈ DIFFICULTY_LEVELS

instance (d : ExpansionData) : Decidable (validDifficulty d) := by
  unfold validDifficulty
  infer_instance

/-- The record schema asserted by the spec (§4.1/§6, claim C7): 4-8
subtopics, 2-5 prerequisites, 3-6 objectives, 5-10 keywords,
`estimated_hours` in `[1, 6]`, and an enumerated difficulty. -/
def validSchema (d : ExpansionData) : Prop :=
  4 ≤ (d.subtopics.getD []).length ∧ (d.subtopics.getD []).length ≤ 8 ∧
  2 ≤ (d.prerequisites.getD []).length ∧ (d.prerequisites.getD []).length ≤ 5 ∧
  3 ≤ (d.objectives.getD []).length ∧ (d.objectives.getD []).length ≤ 6 ∧
  5 ≤ (d.keywords.getD []).length ∧ (d.keywords.getD []).length ≤ 10 ∧
  1 ≤ d.estimated_hours.getD 0 ∧ d.estimated_hours.getD 0 ≤ 6 ∧
  validDifficulty d

instance (d : ExpansionData) : Decidable (validSchema d) := by
  unfold validSchema
  infer_instance

/-- A successful attempt inside the retry loop yields one of the supplied
outcomes. -/
theorem expandAttempts_mem {outs : List (Option ExpansionData)} {fuel : Nat}
    {d : ExpansionData} {n : Nat} (h : expandAttempts outs fuel = some (d, n)) :
    some d ∈ outs := by
  induction outs generalizing fuel n with
  | nil =>
    cases fuel with
    | zero => simp [expandAttempts] at h
    | succ f => simp [expandAttempts] at h
  | cons o rest ih =>
    cases fuel with
    | zero => simp [expandAttempts] at h
    | succ f =>
      cases o with
      | some d' =>
        simp [expandAttempts] at h
        simp [h.1]
      | none =>
        simp [expandAttempts] at h
        rcases hrec : expandAttempts rest f with _ | ⟨d', n'⟩
        · rw [hrec] at h
          simp at h
        · rw [hrec] at h
          simp at h
          have hd : expandAttempts rest f = some (d, n') := by rw [hrec, h.1]
          exact List.mem_cons_of_mem _ (ih hd)

/-- Difficulty coercion changes no field other than `difficulty_level`. -/
theorem coerceDifficulty_fields (d : ExpansionData) (level : String) :
    (coerceDifficulty d level).subtopics = d.subtopics ∧
    (coerceDifficulty d level).prerequisites = d.prerequisites ∧
    (coerceDifficulty d level).objectives = d.objectives ∧
    (coerceDifficulty d level).keywords = d.keywords ∧
    (coerceDifficulty d level).estimated_hours = d.estimated_hours := by
  unfold coerceDifficulty
  split
  next d' heq => by_cases h : d' ∈ DIFFICULTY_LEVELS <;> simp [h]
  next heq => simp

theorem expandAttempts_pos {outs : List (Option ExpansionData)} {fuel : Nat}
    {d : ExpansionData} {n : Nat} (h : expandAttempts outs fuel = some (d, n)) :
    1 ≤ n := by
  cases fuel with
  | zero => simp [expandAttempts] at h
  | succ f =>
    cases outs with
    | nil => simp [expandAttempts] at h
    | cons o rest =>
      cases o with
      | some d' =>
        simp [expandAttempts] at h
        omega
      | none =>
        simp [expandAttempts] at h
        rcases hrec : expandAttempts rest f with _ | ⟨d', n'⟩ <;> rw [hrec] at h
        · simp at h
        · simp at h
          omega

theorem mem_alistSet {α : Type} {l : List (String × α)} {k : String} {v : α}
    {p : String × α} (h : p ∈ alistSet l k v) : p ∈ l ∨ p = (k, v) := by
  induction l with
  | nil => simpa [alistSet] using h
  | cons q rest ih =>
    obtain ⟨k₀, v₀⟩ := q
    by_cases h₀ : k₀ = k
    · simp [alistSet, h₀] at h
      rcases h with h | h
      · subst h₀; right; simp [h]
      · left; simp [h]
    · simp [alistSet, h₀] at h
      rcases h with h | h
      · left; simp [h]
      · rcases ih h with h | h
        · left; simp [h]
        · right; exact h

/-- On success, `expand_topic` leaves the cache holding the returned record
under the request's key (either it was already there, or it was written). -/
theorem expand_topic_writes {cache : Cache} {t s l : String}
    {outs : List (Option ExpansionData)} {maxR : Nat} {d : ExpansionData}
    {cch : Cache} {n : Nat}
    (h : expand_topic cache t s l outs maxR = some (d, cch, n)) :
    alistGet cch (cacheKey s t l) = some d := by
  simp only [expand_topic] at h
  rcases hc : alistGet cache (cacheKey s t l) with _ | d0 <;> rw [hc] at h
  · rcases ha : expandAttempts outs (maxR + 1) with _ | ⟨data, n0⟩ <;> rw [ha] at h
    · simp at h
    · simp at h
      obtain ⟨h1, h2, h3⟩ := h
      rw [← h2, ← h1]
      exact alistGet_set_self cache (cacheKey s t l) _
  · simp at h
    obtain ⟨h1, h2, h3⟩ := h
    rw [← h2, ← h1]
    exact hc

/-- C6: on a cache hit `expand_topic` returns the cached record with no
oracle call and an unchanged cache; on a miss followed by a successful
oracle call it returns the record after writing it to the cache under the
key `subject::topic::current_level` (at least one call was made); hence a
repeated call with the same key hits the cache, issues zero further
oracle calls and returns the same record with the same cache. -/
theorem c6_cache_hit_and_write :
    (∀ (cache : Cache) (topic subject level : String)
        (outs : List (Option ExpansionData)) (maxR : Nat) (d : ExpansionData),
      alistGet cache (cacheKey subject topic level) = some d →
      expand_topic cache topic subject level outs maxR = some (d, cache, 0)) ∧
    (∀ (cache : Cache) (topic subject level : String)
        (outs : List (Option ExpansionData)) (maxR : Nat) (d : ExpansionData)
        (cch : Cache) (n : Nat),
      alistGet cache (cacheKey subject topic level) = none →
      expand_topic cache topic subject level outs maxR = some (d, cch, n) →
      alistGet cch (cacheKey subject topic level) = some d ∧ 1 ≤ n) ∧
    (∀ (cache : Cache) (topic subject level : String)
        (outs : List (Option ExpansionData)) (maxR : Nat) (d : ExpansionData)
        (cch : Cache) (n : Nat) (outs' : List (Option ExpansionData)) (maxR' : Nat),
      expand_topic cache topic subject level outs maxR = some (d, cch, n) →
      expand_topic cch topic subject level outs' maxR' = some (d, cch, 0)) := by
  refine ⟨?_, ?_, ?_⟩
  · intro cache topic subject level outs maxR d h
    simp only [expand_topic]
    rw [h]
  · intro cache topic subject level outs maxR d cch n hmiss h
    refine ⟨expand_topic_writes h, ?_⟩
    simp only [expand_topic] at h
    rw [hmiss] at h
    rcases ha : expandAttempts outs (maxR + 1) with _ | ⟨data, n0⟩ <;> rw [ha] at h
    · simp at h
    · simp at h
      obtain ⟨-, -, h3⟩ := h
      rw [← h3]
      exact expandAttempts_pos ha
  · intro cache topic subject level outs maxR d cch n outs' maxR' h
    have hw := expand_topic_writes h
    simp only [expand_topic]
    rw [hw]

/-- An oracle record with every key absent. -/
def emptyExp : ExpansionData :=
  { subtopics := none, prerequisites := none, objectives := none,
    keywords := none, estimated_hours := none, difficulty_level := none }

/-- A well-formed concrete oracle record used in witnesses. -/
def exRaw : ExpansionData :=
  { emptyExp with
    subtopics := some ["B", "C", "D", "E"]
    prerequisites := some ["P1", "P2"]
    objectives := some ["O1", "O2", "O3"]
    keywords := some ["K1", "K2", "K3", "K4", "K5"]
    estimated_hours := some 3
    difficulty_level := some "level_1" }

/-- Witness for C6 at concrete inputs: a warmed cache returns the cached
record with zero oracle calls; a cold cache with one successful attempt
returns the record, writes it, and a repeat call issues no further oracle
call. -/
theorem c6_witness :
    (expand_topic [(cacheKey "Sci" "A" "base", exRaw)] "A" "Sci" "base" [] 2
      = some (exRaw, [(cacheKey "Sci" "A" "base", exRaw)], 0)) ∧
    (alistGet [(cacheKey "Sci" "A" "base", exRaw)] (cacheKey "Sci" "A" "base")
        = some exRaw ∧ 1 ≤ 1) ∧
    (expand_topic [(cacheKey "Sci" "A" "base", exRaw)] "A" "Sci" "base" [] 5
      = some (exRaw, [(cacheKey "Sci" "A" "base", exRaw)], 0)) :=
  ⟨c6_cache_hit_and_write.1 _ "A" "Sci" "base" [] 2 exRaw rfl,
   c6_cache_hit_and_write.2.1 [] "A" "Sci" "base" [some exRaw] 2 exRaw
     [(cacheKey "Sci" "A" "base", exRaw)] 1 rfl rfl,
   c6_cache_hit_and_write.2.2 [] "A" "Sci" "base" [some exRaw] 2 exRaw
     [(cacheKey "Sci" "A" "base", exRaw)] 1 [] 5 rfl⟩

/-- An oracle record acceptable to the code but violating the spec's
count schema: a single subtopic. -/
def schemaViolResp : ExpansionData :=
  { emptyExp with
    subtopics := some ["S1"]
    prerequisites := some ["P1", "P2"]
    objectives := some ["O1", "O2", "O3"]
    keywords := some ["K1", "K2", "K3", "K4", "K5"]
    estimated_hours := some 3
    difficulty_level := some "base" }

/-- Counterexample to C7: `expand_topic` happily returns a record with a
single subtopic — the 4..8/2..5/3..6/5..10/[1,6] schema is not validated
anywhere in the code path. -/
theorem c7_counterexample :
    ∃ (d : ExpansionData) (cch : Cache) (n : Nat),
      expand_topic [] "A" "Sci" "base" [some schemaViolResp] 2 = some (d, cch, n)
        ∧ ¬ validSchema d := by
  refine ⟨_, _, _, rfl, ?_⟩
  decide

/-- C7 as amended: on a cache miss, the only transformation `expand_topic`
applies to a successful oracle response is the difficulty coercion; all
other fields are returned exactly as produced, with no range validation. -/
theorem c7_only_difficulty_validated :
    ∀ (cache : Cache) (topic subject level : String)
      (outs : List (Option ExpansionData)) (maxR : Nat) (d : ExpansionData)
      (cch : Cache) (n : Nat),
      alistGet cache (cacheKey subject topic level) = none →
      expand_topic cache topic subject level outs maxR = some (d, cch, n) →
      ∃ raw, some raw ∈ outs ∧ d = coerceDifficulty raw level ∧
        d.subtopics = raw.subtopics ∧ d.prerequisites = raw.prerequisites ∧
        d.objectives = raw.objectives ∧ d.keywords = raw.keywords ∧
        d.estimated_hours = raw.estimated_hours := by
  intro cache topic subject level outs maxR d cch n hmiss h
  simp only [expand_topic] at h
  rw [hmiss] at h
  rcases ha : expandAttempts outs (maxR + 1) with _ | ⟨data, n0⟩ <;> rw [ha] at h
  · simp at h
  · simp at h
    obtain ⟨h1, -, -⟩ := h
    refine ⟨data, expandAttempts_mem ha, h1.symm, ?_⟩
    rw [← h1]
    exact coerceDifficulty_fields data level

/-- Witness for the amended C7 at a concrete input. -/
theorem c7_witness :
    ∃ (d : ExpansionData) (cch : Cache) (n : Nat),
      expand_topic [] "B" "Sci" "base" [some schemaViolResp] 2 = some (d, cch, n)
        ∧ ∃ raw, some raw ∈ [some schemaViolResp] ∧ d.subtopics = raw.subtopics := by
  refine ⟨_, _, _, rfl, ?_⟩
  have h := c7_only_difficulty_validated [] "B" "Sci" "base" [some schemaViolResp]
    2 _ _ _ rfl rfl
  obtain ⟨raw, hmem, -, hsub, -⟩ := h
  exact ⟨raw, hmem, hsub⟩

/-- A coerced record carries a valid difficulty whenever the input current
level is itself one of the five levels. -/
theorem coerceDifficulty_valid (raw : ExpansionData) {level : String}
    (hl : level ∈ DIFFICULTY_LEVELS) :
    validDifficulty (coerceDifficulty raw level) := by
  unfold coerceDifficulty validDifficulty
  split
  next d' heq =>
    by_cases h : d' ∈ DIFFICULTY_LEVELS <;> simp [heq, h, hl]
  next heq => simp [hl]

/-- C8: an oracle response whose `difficulty_level` is missing or invalid
is returned with `difficulty_level` replaced by the input current level
(never rejected); with a valid current level and a difficulty-valid cache,
every record `expand_topic` returns has a valid difficulty and the cache
stays difficulty-valid; and a successful attempt always produces a normal
return — an invalid difficulty string never makes `expand_topic` raise. -/
theorem c8_difficulty_coercion :
    (∀ (raw : ExpansionData) (level : String),
      ¬ validDifficulty raw →
      coerceDifficulty raw level = { raw with difficulty_level := some level }) ∧
    (∀ (cache : Cache) (topic subject level : String)
        (outs : List (Option ExpansionData)) (maxR : Nat) (d : ExpansionData)
        (cch : Cache) (n : Nat),
      level ∈ DIFFICULTY_LEVELS →
      (∀ p ∈ cache, validDifficulty p.2) →
      expand_topic cache topic subject level outs maxR = some (d, cch, n) →
      validDifficulty d ∧ ∀ p ∈ cch, validDifficulty p.2) ∧
    (∀ (cache : Cache) (topic subject level : String)
        (outs : List (Option ExpansionData)) (maxR : Nat) (raw : ExpansionData)
        (k : Nat),
      alistGet cache (cacheKey subject topic level) = none →
      expandAttempts outs (maxR + 1) = some (raw, k) →
      expand_topic cache topic subject level outs maxR
        = some (coerceDifficulty raw level,
            alistSet cache (cacheKey subject topic level) (coerceDifficulty raw level),
            k)) := by
  refine ⟨?_, ?_, ?_⟩
  · intro raw level hinv
    unfold coerceDifficulty
    unfold validDifficulty at hinv
    split
    next d' heq =>
      by_cases h : d' ∈ DIFFICULTY_LEVELS
      · exact absurd (by simpa [heq] using h) hinv
      · simp [h]
    next heq => simp
  · intro cache topic subject level outs maxR d cch n hl hcache h
    simp only [expand_topic] at h
    rcases hc : alistGet cache (cacheKey subject topic level) with _ | d0 <;>
      rw [hc] at h
    · rcases ha : expandAttempts outs (maxR + 1) with _ | ⟨data, n0⟩ <;>
        rw [ha] at h
      · simp at h
      · simp at h
        obtain ⟨h1, h2, -⟩ := h
        constructor
        · rw [← h1]
          exact coerceDifficulty_valid data hl
        · intro p hp
          rw [← h2] at hp
          rcases mem_alistSet hp with hp | hp
          · exact hcache p hp
          · rw [hp]
            exact coerceDifficulty_valid data hl
    · simp at h
      obtain ⟨h1, h2, -⟩ := h
      constructor
      · rw [← h1]
        exact hcache _ (mem_of_alistGet_eq_some hc)
      · rw [← h2]
        exact hcache
  · intro cache topic subject level outs maxR raw k hmiss ha
    simp only [expand_topic]
    rw [hmiss, ha]

/-- An oracle record with an invalid difficulty string. -/
def bogusDiffResp : ExpansionData :=
  { emptyExp with subtopics := some ["B"], difficulty_level := some "bogus" }

/-- Witness for C8 at concrete inputs: the `"bogus"` difficulty is coerced
to the input level `"base"` and the call returns normally. -/
theorem c8_witness :
    (coerceDifficulty bogusDiffResp "base"
      = { bogusDiffResp with difficulty_level := some "base" }) ∧
    (validDifficulty (coerceDifficulty bogusDiffResp "base")
      ∧ ∀ p ∈ alistSet ([] : Cache) (cacheKey "Sci" "A" "base")
          (coerceDifficulty bogusDiffResp "base"), validDifficulty p.2) ∧
    (expand_topic [] "A" "Sci" "base" [some bogusDiffResp] 2
      = some (coerceDifficulty bogusDiffResp "base",
          alistSet [] (cacheKey "Sci" "A" "base")
            (coerceDifficulty bogusDiffResp "base"), 1)) := by
  have h3 := c8_difficulty_coercion.2.2 [] "A" "Sci" "base" [some bogusDiffResp]
    2 bogusDiffResp 1 rfl rfl
  have h2 := c8_difficulty_coercion.2.1 [] "A" "Sci" "base" [some bogusDiffResp]
    2 _ _ _ (by decide) (by simp) h3
  exact ⟨c8_difficulty_coercion.1 bogusDiffResp "base" (by decide), h2, h3⟩

theorem addNode_edges (G : DiGraph) (v : String) : (addNode G v).edges = G.edges := by
  unfold addNode
  split <;> rfl

theorem addNode_nodes_of_mem {G : DiGraph} {v : String} (h : v ∈ G.nodes) :
    (addNode G v).nodes = G.nodes := by
  unfold addNode
  simp [h]

theorem mem_addNode_nodes (G : DiGraph) (v u : String) :
    u ∈ (addNode G v).nodes ↔ u ∈ G.nodes ∨ u = v := by
  unfold addNode
  split
  next h => simp; intro he; rw [he]; exact h
  next h => simp

theorem addNode_nodes_nodup {G : DiGraph} {v : String} (h : G.nodes.Nodup) :
    (addNode G v).nodes.Nodup := by
  unfold addNode
  split
  next => exact h
  next hv => simp [List.nodup_append, h, hv]

theorem hasEdge_iff (G : DiGraph) (u v : String) :
    hasEdge G u v = true ↔ ∃ r, (u, v, r) ∈ G.edges := by
  unfold hasEdge
  rw [List.any_eq_true]
  constructor
  · rintro ⟨e, he, hp⟩
    simp at hp
    exact ⟨e.2.2, by rw [← hp.1, ← hp.2]; exact he⟩
  · rintro ⟨r, hr⟩
    exact ⟨(u, v, r), hr, by simp⟩

theorem hasEdge_false_iff (G : DiGraph) (u v : String) :
    hasEdge G u v = false ↔ (u, v) ∉ G.edges.map (fun e => (e.1, e.2.1)) := by
  rw [← Bool.not_eq_true, not_iff_not, hasEdge_iff]
  simp only [List.mem_map]
  constructor
  · rintro ⟨r, hr⟩
    exact ⟨(u, v, r), hr, rfl⟩
  · rintro ⟨e, he, hp⟩
    rw [Prod.mk.injEq] at hp
    exact ⟨e.2.2, by rw [← hp.1, ← hp.2]; exact he⟩

theorem hasEdge_addNode (G : DiGraph) (w u v : String) :
    hasEdge (addNode G w) u v = hasEdge G u v := by
  unfold hasEdge
  rw [addNode_edges]

theorem addEdge_edges_of_not {G : DiGraph} {u v : String} (r : String)
    (h : hasEdge G u v = false) :
    (addEdge G u v r).edges = G.edges ++ [(u, v, r)] := by
  simp only [addEdge]
  rw [hasEdge_addNode, hasEdge_addNode, h]
  simp [addNode_edges]

theorem addEdge_nodes_of_mem {G : DiGraph} {u v : String} (r : String)
    (hu : u ∈ G.nodes) (hv : v ∈ G.nodes) : (addEdge G u v r).nodes = G.nodes := by
  simp only [addEdge]
  have h1 : (addNode G u).nodes = G.nodes := addNode_nodes_of_mem hu
  have h2 : (addNode (addNode G u) v).nodes = G.nodes := by
    rw [addNode_nodes_of_mem (by rw [h1]; exact hv), h1]
  split <;> simpa using h2

/-- Well-formedness of the scheduler state, maintained throughout
`build_graph`: graph nodes coincide with the `nodes_map` keys (both are
inserted together), keys are unique, every stored node's `code` field
equals its key, edge endpoints are graph nodes, and there is at most one
edge per ordered pair. -/
def WFState (s : BuildState) : Prop :=
  s.G.nodes = alistKeys s.nodes_map ∧
  (alistKeys s.nodes_map).Nodup ∧
  (∀ p ∈ s.nodes_map, (p.2 : Node).code = p.1) ∧
  (∀ e ∈ s.G.edges, e.1 ∈ s.G.nodes ∧ e.2.1 ∈ s.G.nodes) ∧
  (s.G.edges.map (fun e => (e.1, e.2.1))).Nodup

/-- Monotone evolution of the scheduler state: node-map keys, edges and
the processed set only grow, and the expansion log only gets appended
to. -/
def Evolves (s s' : BuildState) : Prop :=
  (∀ k, k ∈ alistKeys s.nodes_map → k ∈ alistKeys s'.nodes_map) ∧
  (∀ e, e ∈ s.G.edges → e ∈ s'.G.edges) ∧
  (∀ c, c ∈ s.processed → c ∈ s'.processed) ∧
  (∃ t, s'.expandedLog = s.expandedLog ++ t)

theorem evolves_refl (s : BuildState) : Evolves s s :=
  ⟨fun _ h => h, fun _ h => h, fun _ h => h, ⟨[], by simp⟩⟩

theorem evolves_trans {s t u : BuildState} (h1 : Evolves s t) (h2 : Evolves t u) :
    Evolves s u := by
  obtain ⟨a1, b1, c1, l1, hl1⟩ := h1
  obtain ⟨a2, b2, c2, l2, hl2⟩ := h2
  exact ⟨fun k hk => a2 k (a1 k hk), fun e he => b2 e (b1 e he),
    fun c hc => c2 c (c1 c hc), ⟨l1 ++ l2, by rw [hl2, hl1, List.append_assoc]⟩⟩

/-- Creating a fresh node (new key, paired `add_node`, enqueue) preserves
well-formedness. -/
theorem createStep_wf {s : BuildState} {c : String} {nd : Node} {dr cd : Nat}
    (hnew : alistGet s.nodes_map c = none) (hcode : nd.code = c)
    (hwf : WFState s) : WFState (createStep c nd dr cd s) := by
  obtain ⟨h1, h2, h3, h4, h5⟩ := hwf
  have hck : c ∉ alistKeys s.nodes_map := (alistGet_eq_none_iff _ _).mp hnew
  have hcn : c ∉ s.G.nodes := by rw [h1]; exact hck
  have hGn : (addNode s.G c).nodes = s.G.nodes ++ [c] := by
    unfold addNode; simp [hcn]
  refine ⟨?_, ?_, ?_, ?_, ?_⟩
  · show (addNode s.G c).nodes = alistKeys (alistSet s.nodes_map c nd)
    rw [hGn, alistKeys_set_new _ _ _ hck, h1]
  · exact alistKeys_set_nodup _ _ _ h2
  · intro p hp
    rcases mem_alistSet hp with hp | hp
    · exact h3 p hp
    · rw [hp]; exact hcode
  · intro e he
    rw [show (createStep c nd dr cd s).G.edges = s.G.edges from addNode_edges _ _] at he
    have := h4 e he
    show e.1 ∈ (addNode s.G c).nodes ∧ e.2.1 ∈ (addNode s.G c).nodes
    rw [hGn]
    exact ⟨List.mem_append_left _ this.1, List.mem_append_left _ this.2⟩
  · show ((addNode s.G c).edges.map _).Nodup
    rw [addNode_edges]
    exact h5

theorem createStep_nodes (c : String) (nd : Node) (dr cd : Nat) (s : BuildState)
    (w : String) :
    w ∈ (createStep c nd dr cd s).G.nodes ↔ w ∈ s.G.nodes ∨ w = c :=
  mem_addNode_nodes s.G c w

/-- Creating a fresh node evolves the state monotonically. -/
theorem createStep_evolves (s : BuildState) (c : String) (nd : Node)
    (dr cd : Nat) : Evolves s (createStep c nd dr cd s) := by
  refine ⟨?_, ?_, fun _ h => h, ⟨[], by simp [createStep]⟩⟩
  · intro k hk
    show k ∈ alistKeys (alistSet s.nodes_map c nd)
    by_cases hc : c ∈ alistKeys s.nodes_map
    · rw [alistKeys_set_mem _ _ _ hc]; exact hk
    · rw [alistKeys_set_new _ _ _ hc]; exact List.mem_append_left _ hk
  · intro e he
    show e ∈ (addNode s.G c).edges
    rw [addNode_edges]; exact he

/-- The guarded edge insertion between existing nodes preserves
well-formedness. -/
theorem edgeGuard_wf {s : BuildState} {u v : String} (r : String)
    (hu : u ∈ s.G.nodes) (hv : v ∈ s.G.nodes) (hwf : WFState s) :
    WFState (edgeGuard u v r s) := by
  obtain ⟨h1, h2, h3, h4, h5⟩ := hwf
  unfold edgeGuard
  split
  next => exact ⟨h1, h2, h3, h4, h5⟩
  next hne =>
    rw [Bool.not_eq_true] at hne
    have hE := addEdge_edges_of_not r hne
    have hN := addEdge_nodes_of_mem r hu hv
    refine ⟨?_, h2, h3, ?_, ?_⟩
    · show (addEdge s.G u v r).nodes = _
      rw [hN]; exact h1
    · intro e he
      rw [show ({ s with G := addEdge s.G u v r } : BuildState).G.edges
        = s.G.edges ++ [(u, v, r)] from hE] at he
      show e.1 ∈ (addEdge s.G u v r).nodes ∧ e.2.1 ∈ (addEdge s.G u v r).nodes
      rw [hN]
      rcases List.mem_append.mp he with he | he
      · exact h4 e he
      · simp at he
        rw [he]
        exact ⟨hu, hv⟩
    · show ((addEdge s.G u v r).edges.map (fun e => (e.1, e.2.1))).Nodup
      rw [hE, List.map_append]
      simp only [List.map_cons, List.map_nil]
      rw [List.nodup_append]
      refine ⟨h5, List.nodup_singleton _, ?_⟩
      intro p hp hq
      simp at hq
      rw [hq] at hp
      exact (hasEdge_false_iff s.G u v).mp hne hp

theorem edgeGuard_nodes {s : BuildState} {u v : String} (r : String)
    (hu : u ∈ s.G.nodes) (hv : v ∈ s.G.nodes) :
    (edgeGuard u v r s).G.nodes = s.G.nodes := by
  unfold edgeGuard
  split
  next => rfl
  next hne =>
    rw [Bool.not_eq_true] at hne
    exact addEdge_nodes_of_mem r hu hv

theorem edgeGuard_evolves (s : BuildState) (u v r : String) :
    Evolves s (edgeGuard u v r s) := by
  unfold edgeGuard
  split
  next => exact evolves_refl s
  next hne =>
    rw [Bool.not_eq_true] at hne
    refine ⟨fun _ h => h, ?_, fun _ h => h, ⟨[], by simp⟩⟩
    intro e he
    show e ∈ (addEdge s.G u v r).edges
    rw [addEdge_edges_of_not r hne]
    exact List.mem_append_left _ he

theorem subStep_wf (code subject title childDiff : String) (expHours : Rat)
    (dr cd : Nat) (t : String) (s : BuildState)
    (hwf : WFState s) (hc : code ∈ s.G.nodes) :
    WFState (subStep code subject title childDiff expHours dr cd t s) ∧
    code ∈ (subStep code subject title childDiff expHours dr cd t s).G.nodes ∧
    Evolves s (subStep code subject title childDiff expHours dr cd t s) := by
  simp only [subStep]
  rcases hnew : alistGet s.nodes_map (generate_code subject t) with _ | nd0 <;>
    dsimp only
  · have hwf1 := @createStep_wf s (generate_code subject t)
      (mkSubNode subject t title childDiff expHours code) (dr - 1) (cd + 1)
      hnew rfl hwf
    have hc1 : code ∈ (createStep (generate_code subject t)
        (mkSubNode subject t title childDiff expHours code) (dr - 1) (cd + 1) s).G.nodes :=
      (createStep_nodes _ _ _ _ _ _).mpr (Or.inl hc)
    have hs1 : generate_code subject t ∈ (createStep (generate_code subject t)
        (mkSubNode subject t title childDiff expHours code) (dr - 1) (cd + 1) s).G.nodes :=
      (createStep_nodes _ _ _ _ _ _).mpr (Or.inr rfl)
    refine ⟨edgeGuard_wf _ hc1 hs1 hwf1, ?_, ?_⟩
    · rw [edgeGuard_nodes _ hc1 hs1]
      exact hc1
    · exact evolves_trans (createStep_evolves s _ _ _ _) (edgeGuard_evolves _ _ _ _)
  · refine ⟨edgeGuard_wf _ hc ?_ hwf, ?_, edgeGuard_evolves _ _ _ _⟩
    · rw [hwf.1]
      exact (mem_alistKeys_iff _ _).mpr ⟨nd0, mem_of_alistGet_eq_some hnew⟩
    · have hs1 : generate_code subject t ∈ s.G.nodes := by
        rw [hwf.1]
        exact (mem_alistKeys_iff _ _).mpr ⟨nd0, mem_of_alistGet_eq_some hnew⟩
      rw [edgeGuard_nodes _ hc hs1]
      exact hc

theorem preStep_wf (code subject title childDiff : String)
    (dr cd : Nat) (t : String) (s : BuildState)
    (hwf : WFState s) (hc : code ∈ s.G.nodes) :
    WFState (preStep code subject title childDiff dr cd t s).1 ∧
    code ∈ (preStep code subject title childDiff dr cd t s).1.G.nodes ∧
    Evolves s (preStep code subject title childDiff dr cd t s).1 := by
  simp only [preStep]
  rcases hnew : alistGet s.nodes_map (generate_code subject t) with _ | nd0 <;>
    dsimp only
  · by_cases hlev : childDiff ∈ DIFFICULTY_LEVELS
    · rw [if_pos hlev]
      dsimp only
      have hwf1 := @createStep_wf s (generate_code subject t)
        (mkPreNode subject t title
          (DIFFICULTY_LEVELS.getD (DIFFICULTY_LEVELS.indexOf childDiff - 1) "base")
          code) (dr - 1) (cd + 1) hnew rfl hwf
      have hc1 : code ∈ (createStep (generate_code subject t)
          (mkPreNode subject t title
            (DIFFICULTY_LEVELS.getD (DIFFICULTY_LEVELS.indexOf childDiff - 1) "base")
            code) (dr - 1) (cd + 1) s).G.nodes :=
        (createStep_nodes _ _ _ _ _ _).mpr (Or.inl hc)
      have hs1 : generate_code subject t ∈ (createStep (generate_code subject t)
          (mkPreNode subject t title
            (DIFFICULTY_LEVELS.getD (DIFFICULTY_LEVELS.indexOf childDiff - 1) "base")
            code) (dr - 1) (cd + 1) s).G.nodes :=
        (createStep_nodes _ _ _ _ _ _).mpr (Or.inr rfl)
      refine ⟨edgeGuard_wf _ hs1 hc1 hwf1, ?_, ?_⟩
      · rw [edgeGuard_nodes _ hs1 hc1]
        exact hc1
      · exact evolves_trans (createStep_evolves s _ _ _ _) (edgeGuard_evolves _ _ _ _)
    · rw [if_neg hlev]
      exact ⟨hwf, hc, evolves_refl s⟩
  · have hs1 : generate_code subject t ∈ s.G.nodes := by
      rw [hwf.1]
      exact (mem_alistKeys_iff _ _).mpr ⟨nd0, mem_of_alistGet_eq_some hnew⟩
    refine ⟨edgeGuard_wf _ hs1 hc hwf, ?_, edgeGuard_evolves _ _ _ _⟩
    rw [edgeGuard_nodes _ hs1 hc]
    exact hc

theorem subLoop_wf (maxN : Nat) (code subject title childDiff : String)
    (expHours : Rat) (dr cd : Nat) (ts : List String) :
    ∀ (s : BuildState), WFState s → code ∈ s.G.nodes →
      WFState (subLoop maxN code subject title childDiff expHours dr cd ts s) ∧
      code ∈ (subLoop maxN code subject title childDiff expHours dr cd ts s).G.nodes ∧
      Evolves s (subLoop maxN code subject title childDiff expHours dr cd ts s) := by
  induction ts with
  | nil =>
    intro s hwf hc
    exact ⟨hwf, hc, evolves_refl s⟩
  | cons t rest ih =>
    intro s hwf hc
    rw [subLoop]
    by_cases hb : s.nodes_map.length ≥ maxN
    · rw [if_pos hb]
      exact ⟨hwf, hc, evolves_refl s⟩
    · rw [if_neg hb]
      obtain ⟨h1, h2, h3⟩ := subStep_wf code subject title childDiff expHours dr cd t s hwf hc
      obtain ⟨h4, h5, h6⟩ := ih _ h1 h2
      exact ⟨h4, h5, evolves_trans h3 h6⟩

theorem preLoop_wf (maxN : Nat) (code subject title childDiff : String)
    (dr cd : Nat) (ts : List String) :
    ∀ (s : BuildState), WFState s → code ∈ s.G.nodes →
      WFState (preLoop maxN code subject title childDiff dr cd ts s) ∧
      code ∈ (preLoop maxN code subject title childDiff dr cd ts s).G.nodes ∧
      Evolves s (preLoop maxN code subject title childDiff dr cd ts s) := by
  induction ts with
  | nil =>
    intro s hwf hc
    exact ⟨hwf, hc, evolves_refl s⟩
  | cons t rest ih =>
    intro s hwf hc
    rw [preLoop]
    by_cases hb : s.nodes_map.length ≥ maxN
    · rw [if_pos hb]
      exact ⟨hwf, hc, evolves_refl s⟩
    · rw [if_neg hb]
      obtain ⟨h1, h2, h3⟩ := preStep_wf code subject title childDiff dr cd t s hwf hc
      rcases hps : preStep code subject title childDiff dr cd t s with ⟨s1, flag⟩
      rw [hps] at h1 h2 h3
      cases flag
      · exact ⟨h1, h2, h3⟩
      · obtain ⟨h4, h5, h6⟩ := ih s1 h1 h2
        exact ⟨h4, h5, evolves_trans h3 h6⟩

theorem stepEntry_wf (oracle : Oracle) (maxN : Nat) (code : String)
    (dr cd : Nat) (s : BuildState) (hwf : WFState s) :
    WFState (stepEntry oracle maxN code dr cd s) ∧
    Evolves s (stepEntry oracle maxN code dr cd s) := by
  simp only [stepEntry]
  rcases hnode : alistGet s.nodes_map code with _ | node <;> dsimp only
  · exact ⟨hwf, evolves_refl s⟩
  · have hck : code ∈ alistKeys s.nodes_map :=
      (mem_alistKeys_iff _ _).mpr ⟨node, mem_of_alistGet_eq_some hnode⟩
    have hlogwf : WFState { s with expandedLog := s.expandedLog ++ [code] } := hwf
    have hlogev : Evolves s { s with expandedLog := s.expandedLog ++ [code] } :=
      ⟨fun _ h => h, fun _ h => h, fun _ h => h, ⟨[code], rfl⟩⟩
    rcases hexp : expand_topic s.cache node.title node.subject node.difficulty_level
        (oracle node.title node.subject node.difficulty_level (cd + 1)) 2 with
      _ | res <;> dsimp only
    · exact ⟨hlogwf, hlogev⟩
    · obtain ⟨expansion, cache', ncalls⟩ := res
      dsimp only
      set node' : Node :=
        { node with
          objectives := expansion.objectives.getD node.objectives
          keywords := expansion.keywords.getD node.keywords
          estimated_hours := expansion.estimated_hours.getD node.estimated_hours }
        with hnode'
      have hcodef : node'.code = code := by
        have := hwf.2.2.1 (code, node) (mem_of_alistGet_eq_some hnode)
        simpa [hnode'] using this
      set s2 : BuildState :=
        { s with
          expandedLog := s.expandedLog ++ [code]
          cache := cache'
          nodes_map := alistSet s.nodes_map code node' } with hs2
      have hwf2 : WFState s2 := by
        obtain ⟨h1, h2, h3, h4, h5⟩ := hwf
        refine ⟨?_, ?_, ?_, h4, h5⟩
        · show s.G.nodes = alistKeys (alistSet s.nodes_map code node')
          rw [alistKeys_set_mem _ _ _ hck]
          exact h1
        · show (alistKeys (alistSet s.nodes_map code node')).Nodup
          rw [alistKeys_set_mem _ _ _ hck]
          exact h2
        · intro p hp
          rcases mem_alistSet hp with hp | hp
          · exact h3 p hp
          · rw [hp]; exact hcodef
      have hev2 : Evolves s s2 := by
        refine ⟨?_, fun _ h => h, fun _ h => h, ⟨[code], rfl⟩⟩
        intro k hk
        show k ∈ alistKeys (alistSet s.nodes_map code node')
        rw [alistKeys_set_mem _ _ _ hck]
        exact hk
      have hc2 : code ∈ s2.G.nodes := by
        show code ∈ s.G.nodes
        rw [hwf.1]
        exact hck
      obtain ⟨h1, h2, h3⟩ := subLoop_wf maxN code node.subject node.title
        (expansion.difficulty_level.getD node.difficulty_level)
        (expansion.estimated_hours.getD 2) dr cd (expansion.subtopics.getD []) s2 hwf2 hc2
      obtain ⟨h4, h5, h6⟩ := preLoop_wf maxN code node.subject node.title
        (expansion.difficulty_level.getD node.difficulty_level) dr cd
        (expansion.prerequisites.getD []) _ h1 h2
      exact ⟨h4, evolves_trans hev2 (evolves_trans h3 h6)⟩

theorem buildLoop_wf (oracle : Oracle) (maxN : Nat) (fuel : Nat) :
    ∀ (s : BuildState), WFState s →
      WFState (buildLoop oracle maxN fuel s) ∧
      Evolves s (buildLoop oracle maxN fuel s) := by
  induction fuel with
  | zero =>
    intro s hwf
    exact ⟨hwf, evolves_refl s⟩
  | succ f ih =>
    intro s hwf
    rw [buildLoop]
    rcases hq : s.q with _ | ⟨⟨code, dr, cd⟩, rest⟩ <;> dsimp only
    · exact ⟨hwf, evolves_refl s⟩
    · by_cases hb : s.nodes_map.length ≥ maxN
      · rw [if_pos hb]
        exact ⟨hwf, evolves_refl s⟩
      · rw [if_neg hb]
        have hwf1 : WFState { s with q := rest } := hwf
        have hev1 : Evolves s { s with q := rest } :=
          ⟨fun _ h => h, fun _ h => h, fun _ h => h, ⟨[], by simp⟩⟩
        by_cases hskip : code ∈ s.processed ∨ dr = 0
        · rw [if_pos hskip]
          obtain ⟨h1, h2⟩ := ih _ hwf1
          exact ⟨h1, evolves_trans hev1 h2⟩
        · rw [if_neg hskip]
          have hwf2 : WFState { s with q := rest, processed := s.processed ++ [code] } :=
            hwf
          have hev2 : Evolves s { s with q := rest, processed := s.processed ++ [code] } :=
            ⟨fun _ h => h, fun _ h => h, fun _ h => List.mem_append_left _ h,
              ⟨[], by simp⟩⟩
          obtain ⟨h3, h4⟩ := stepEntry_wf oracle maxN code dr cd _ hwf2
          obtain ⟨h5, h6⟩ := ih _ h3
          exact ⟨h5, evolves_trans hev2 (evolves_trans h4 h6)⟩

theorem seedInsert_wf {s : BuildState} {c : String} {nd : Node}
    (hcode : nd.code = c) (hwf : WFState s) :
    WFState { s with nodes_map := alistSet s.nodes_map c nd,
                     G := addNode s.G c } := by
  obtain ⟨h1, h2, h3, h4, h5⟩ := hwf
  by_cases hck : c ∈ alistKeys s.nodes_map
  · have hcn : c ∈ s.G.nodes := by rw [h1]; exact hck
    refine ⟨?_, ?_, ?_, ?_, ?_⟩
    · show (addNode s.G c).nodes = alistKeys (alistSet s.nodes_map c nd)
      rw [addNode_nodes_of_mem hcn, alistKeys_set_mem _ _ _ hck]
      exact h1
    · show (alistKeys (alistSet s.nodes_map c nd)).Nodup
      rw [alistKeys_set_mem _ _ _ hck]
      exact h2
    · intro p hp
      rcases mem_alistSet hp with hp | hp
      · exact h3 p hp
      · rw [hp]; exact hcode
    · intro e he
      have he' : e ∈ s.G.edges := by
        have hx : e ∈ (addNode s.G c).edges := he
        rwa [addNode_edges] at hx
      have := h4 e he'
      show e.1 ∈ (addNode s.G c).nodes ∧ e.2.1 ∈ (addNode s.G c).nodes
      rw [addNode_nodes_of_mem hcn]
      exact this
    · have hx : ((addNode s.G c).edges.map (fun e => (e.1, e.2.1))).Nodup := by
        rw [addNode_edges]; exact h5
      exact hx
  · have hcn : c ∉ s.G.nodes := by rw [h1]; exact hck
    have hGn : (addNode s.G c).nodes = s.G.nodes ++ [c] := by
      unfold addNode; simp [hcn]
    refine ⟨?_, ?_, ?_, ?_, ?_⟩
    · show (addNode s.G c).nodes = alistKeys (alistSet s.nodes_map c nd)
      rw [hGn, alistKeys_set_new _ _ _ hck, h1]
    · exact alistKeys_set_nodup _ _ _ h2
    · intro p hp
      rcases mem_alistSet hp with hp | hp
      · exact h3 p hp
      · rw [hp]; exact hcode
    · intro e he
      have he' : e ∈ s.G.edges := by
        have hx : e ∈ (addNode s.G c).edges := he
        rwa [addNode_edges] at hx
      have := h4 e he'
      show e.1 ∈ (addNode s.G c).nodes ∧ e.2.1 ∈ (addNode s.G c).nodes
      rw [hGn]
      exact ⟨List.mem_append_left _ this.1, List.mem_append_left _ this.2⟩
    · have hx : ((addNode s.G c).edges.map (fun e => (e.1, e.2.1))).Nodup := by
        rw [addNode_edges]; exact h5
      exact hx

theorem initState_wf (seeds : List Seed) (rd : Nat) (c0 : Cache) :
    WFState (initState seeds rd c0) := by
  have hfold : ∀ (l : List Seed) (s : BuildState), WFState s →
      WFState (l.foldl
        (fun s seed =>
          let code :=
            match seed.code with
            | some c => if c = "" then generate_code seed.subject seed.title else c
            | none => generate_code seed.subject seed.title
          { s with
            nodes_map := alistSet s.nodes_map code (seedNode seed code)
            G := addNode s.G code }) s) := by
    intro l
    induction l with
    | nil => intro s hwf; exact hwf
    | cons seed rest ih =>
      intro s hwf
      exact ih _ (seedInsert_wf rfl hwf)
  have h0 : WFState
      { G := ⟨[], []⟩, nodes_map := [], processed := [], q := [],
        cache := c0, expandedLog := [] } := by
    refine ⟨rfl, by simp [alistKeys], ?_, ?_, by simp⟩
    · intro p hp; simp at hp
    · intro e he; simp at he
  unfold initState
  exact hfold seeds _ h0

/-- Every state reached by the expansion phase of `build_graph` is
well-formed. -/
theorem expandPhase_wf (oracle : Oracle) (seeds : List Seed)
    (rd maxN : Nat) (c0 : Cache) : WFState (expandPhase oracle seeds rd maxN c0) :=
  (buildLoop_wf oracle maxN _ _ (initState_wf seeds rd c0)).1

theorem alistSet_length_le {α : Type} (l : List (String × α)) (k : String) (v : α) :
    (alistSet l k v).length ≤ l.length + 1 := by
  by_cases hk : k ∈ alistKeys l
  · rw [alistSet_length_mem _ _ _ hk]; omega
  · rw [alistSet_length_new _ _ _ hk]

theorem edgeGuard_nodes_map (u v r : String) (s : BuildState) :
    (edgeGuard u v r s).nodes_map = s.nodes_map := by
  unfold edgeGuard
  split <;> rfl

theorem edgeGuard_q (u v r : String) (s : BuildState) :
    (edgeGuard u v r s).q = s.q := by
  unfold edgeGuard
  split <;> rfl

theorem subStep_len_le (code subject title childDiff : String) (expHours : Rat)
    (dr cd : Nat) (t : String) (s : BuildState) :
    (subStep code subject title childDiff expHours dr cd t s).nodes_map.length
      ≤ s.nodes_map.length + 1 := by
  simp only [subStep]
  rcases hnew : alistGet s.nodes_map (generate_code subject t) with _ | nd0 <;> dsimp only
  · rw [edgeGuard_nodes_map]
    show (alistSet s.nodes_map _ _).length ≤ _
    exact alistSet_length_le _ _ _
  · rw [edgeGuard_nodes_map]
    omega

theorem preStep_len_le (code subject title childDiff : String)
    (dr cd : Nat) (t : String) (s : BuildState) :
    (preStep code subject title childDiff dr cd t s).1.nodes_map.length
      ≤ s.nodes_map.length + 1 := by
  simp only [preStep]
  rcases hnew : alistGet s.nodes_map (generate_code subject t) with _ | nd0 <;> dsimp only
  · by_cases hlev : childDiff ∈ DIFFICULTY_LEVELS
    · rw [if_pos hlev]
      dsimp only
      rw [edgeGuard_nodes_map]
      show (alistSet s.nodes_map _ _).length ≤ _
      exact alistSet_length_le _ _ _
    · rw [if_neg hlev]
      dsimp only
      omega
  · rw [edgeGuard_nodes_map]
    omega

theorem subLoop_len (maxN : Nat) (code subject title childDiff : String)
    (expHours : Rat) (dr cd : Nat) (ts : List String) :
    ∀ (s : BuildState),
      (subLoop maxN code subject title childDiff expHours dr cd ts s).nodes_map.length
        ≤ max s.nodes_map.length maxN := by
  induction ts with
  | nil =>
    intro s
    exact le_max_left _ _
  | cons t rest ih =>
    intro s
    rw [subLoop]
    by_cases hb : s.nodes_map.length ≥ maxN
    · rw [if_pos hb]
      exact le_max_left _ _
    · rw [if_neg hb]
      have h1 := subStep_len_le code subject title childDiff expHours dr cd t s
      have h2 := ih (subStep code subject title childDiff expHours dr cd t s)
      omega

theorem preLoop_len (maxN : Nat) (code subject title childDiff : String)
    (dr cd : Nat) (ts : List String) :
    ∀ (s : BuildState),
      (preLoop maxN code subject title childDiff dr cd ts s).nodes_map.length
        ≤ max s.nodes_map.length maxN := by
  induction ts with
  | nil =>
    intro s
    exact le_max_left _ _
  | cons t rest ih =>
    intro s
    rw [preLoop]
    by_cases hb : s.nodes_map.length ≥ maxN
    · rw [if_pos hb]
      exact le_max_left _ _
    · rw [if_neg hb]
      have h1 := preStep_len_le code subject title childDiff dr cd t s
      rcases hps : preStep code subject title childDiff dr cd t s with ⟨s1, flag⟩
      rw [hps] at h1
      cases flag
      · dsimp only
        simp only at h1
        omega
      · dsimp only
        have h2 := ih s1
        simp only at h1
        omega

theorem stepEntry_len (oracle : Oracle) (maxN : Nat) (code : String)
    (dr cd : Nat) (s : BuildState) :
    (stepEntry oracle maxN code dr cd s).nodes_map.length
      ≤ max s.nodes_map.length maxN := by
  simp only [stepEntry]
  rcases hnode : alistGet s.nodes_map code with _ | node <;> dsimp only
  · exact le_max_left _ _
  · rcases hexp : expand_topic s.cache node.title node.subject node.difficulty_level
        (oracle node.title node.subject node.difficulty_level (cd + 1)) 2 with
      _ | res <;> dsimp only
    · exact le_max_left _ _
    · obtain ⟨expansion, cache', ncalls⟩ := res
      dsimp only
      have hck : code ∈ alistKeys s.nodes_map :=
        (mem_alistKeys_iff _ _).mpr ⟨node, mem_of_alistGet_eq_some hnode⟩
      have hlen : (alistSet s.nodes_map code
          { node with
            objectives := expansion.objectives.getD node.objectives
            keywords := expansion.keywords.getD node.keywords
            estimated_hours := expansion.estimated_hours.getD node.estimated_hours }).length
          = s.nodes_map.length := alistSet_length_mem _ _ _ hck
      have h1 := subLoop_len maxN code node.subject node.title
        (expansion.difficulty_level.getD node.difficulty_level)
        (expansion.estimated_hours.getD 2) dr cd (expansion.subtopics.getD [])
        { s with
          expandedLog := s.expandedLog ++ [code]
          cache := cache'
          nodes_map := alistSet s.nodes_map code
            { node with
              objectives := expansion.objectives.getD node.objectives
              keywords := expansion.keywords.getD node.keywords
              estimated_hours := expansion.estimated_hours.getD node.estimated_hours } }
      have h2 := preLoop_len maxN code node.subject node.title
        (expansion.difficulty_level.getD node.difficulty_level) dr cd
        (expansion.prerequisites.getD [])
        (subLoop maxN code node.subject node.title
          (expansion.difficulty_level.getD node.difficulty_level)
          (expansion.estimated_hours.getD 2) dr cd (expansion.subtopics.getD [])
          { s with
            expandedLog := s.expandedLog ++ [code]
            cache := cache'
            nodes_map := alistSet s.nodes_map code
              { node with
                objectives := expansion.objectives.getD node.objectives
                keywords := expansion.keywords.getD node.keywords
                estimated_hours := expansion.estimated_hours.getD node.estimated_hours } })
      simp only at h1
      rw [hlen] at h1
      omega

theorem buildLoop_len (oracle : Oracle) (maxN : Nat) (fuel : Nat) :
    ∀ (s : BuildState),
      (buildLoop oracle maxN fuel s).nodes_map.length ≤ max s.nodes_map.length maxN := by
  induction fuel with
  | zero =>
    intro s
    exact le_max_left _ _
  | succ f ih =>
    intro s
    rw [buildLoop]
    rcases hq : s.q with _ | ⟨⟨code, dr, cd⟩, rest⟩ <;> dsimp only
    · exact le_max_left _ _
    · by_cases hb : s.nodes_map.length ≥ maxN
      · rw [if_pos hb]
        exact le_max_left _ _
      · rw [if_neg hb]
        by_cases hskip : code ∈ s.processed ∨ dr = 0
        · rw [if_pos hskip]
          have := ih { s with q := rest }
          simp only at this
          omega
        · rw [if_neg hskip]
          have h1 := stepEntry_len oracle maxN code dr cd
            { s with q := rest, processed := s.processed ++ [code] }
          have h2 := ih (stepEntry oracle maxN code dr cd
            { s with q := rest, processed := s.processed ++ [code] })
          simp only at h1
          omega

theorem initState_len (seeds : List Seed) (rd : Nat) (c0 : Cache) :
    (initState seeds rd c0).nodes_map.length ≤ seeds.length := by
  have hfold : ∀ (l : List Seed) (s : BuildState),
      (l.foldl
        (fun s seed =>
          let code :=
            match seed.code with
            | some c => if c = "" then generate_code seed.subject seed.title else c
            | none => generate_code seed.subject seed.title
          { s with
            nodes_map := alistSet s.nodes_map code (seedNode seed code)
            G := addNode s.G code }) s).nodes_map.length
        ≤ s.nodes_map.length + l.length := by
    intro l
    induction l with
    | nil => intro s; simp
    | cons seed rest ih =>
      intro s
      have h1 := ih { s with
        nodes_map := alistSet s.nodes_map
          (match seed.code with
           | some c => if c = "" then generate_code seed.subject seed.title else c
           | none => generate_code seed.subject seed.title)
          (seedNode seed
            (match seed.code with
             | some c => if c = "" then generate_code seed.subject seed.title else c
             | none => generate_code seed.subject seed.title))
        G := addNode s.G
          (match seed.code with
           | some c => if c = "" then generate_code seed.subject seed.title else c
           | none => generate_code seed.subject seed.title) }
      have h2 := alistSet_length_le s.nodes_map
        (match seed.code with
         | some c => if c = "" then generate_code seed.subject seed.title else c
         | none => generate_code seed.subject seed.title)
        (seedNode seed
          (match seed.code with
           | some c => if c = "" then generate_code seed.subject seed.title else c
           | none => generate_code seed.subject seed.title))
      have h3 : ({ s with
          nodes_map := alistSet s.nodes_map
            (match seed.code with
             | some c => if c = "" then generate_code seed.subject seed.title else c
             | none => generate_code seed.subject seed.title)
            (seedNode seed
              (match seed.code with
               | some c => if c = "" then generate_code seed.subject seed.title else c
               | none => generate_code seed.subject seed.title))
          G := addNode s.G
            (match seed.code with
             | some c => if c = "" then generate_code seed.subject seed.title else c
             | none => generate_code seed.subject seed.title) } : BuildState).nodes_map.length
          = (alistSet s.nodes_map
            (match seed.code with
             | some c => if c = "" then generate_code seed.subject seed.title else c
             | none => generate_code seed.subject seed.title)
            (seedNode seed
              (match seed.code with
               | some c => if c = "" then generate_code seed.subject seed.title else c
               | none => generate_code seed.subject seed.title))).length := rfl
      simp only [List.foldl_cons, List.length_cons] at h1 ⊢
      omega
  have := hfold seeds
    { G := ⟨[], []⟩, nodes_map := [], processed := [], q := [],
      cache := c0, expandedLog := [] }
  unfold initState
  simpa using this

theorem reconcileNode_length (G : DiGraph) (nm : List (String × Node))
    (code : String) : (reconcileNode G nm code).length = nm.length := by
  unfold reconcileNode
  rcases h : alistGet nm code with _ | node
  · rfl
  · dsimp only
    have hck : code ∈ alistKeys nm :=
      (mem_alistKeys_iff _ _).mpr ⟨node, mem_of_alistGet_eq_some h⟩
    exact alistSet_length_mem _ _ _ hck

theorem reconcile_length (G : DiGraph) (nm : List (String × Node)) :
    (reconcile G nm).length = nm.length := by
  unfold reconcile
  have : ∀ (l : List String) (nm : List (String × Node)),
      (l.foldl (fun nm code => reconcileNode G nm code) nm).length = nm.length := by
    intro l
    induction l with
    | nil => intro nm; rfl
    | cons c rest ih =>
      intro nm
      rw [List.foldl_cons, ih, reconcileNode_length]
  exact this G.nodes nm

theorem removeClosingEdge_nodes (G : DiGraph) (c : List String) :
    (removeClosingEdge G c).nodes = G.nodes := by
  unfold removeClosingEdge removeEdge
  split
  · dsimp only
    split <;> rfl
  · rfl

theorem resolveCycles_nodes (G : DiGraph) : (resolveCycles G).nodes = G.nodes := by
  unfold resolveCycles
  split
  · rfl
  · have : ∀ (cs : List (List String)) (G0 : DiGraph),
        (cs.foldl removeClosingEdge G0).nodes = G0.nodes := by
      intro cs
      induction cs with
      | nil => intro G0; rfl
      | cons c rest ih =>
        intro G0
        rw [List.foldl_cons, ih, removeClosingEdge_nodes]
    exact this _ _

/-- Seeds used by concrete counterexamples and witnesses. -/
def seedSciA : Seed := { subject := "Sci", title := "A" }

def seedSciB : Seed := { subject := "Sci", title := "B" }

/-- Counterexample to C2: with two seeds and `max_nodes = 1`, the seed
loop creates both nodes unconditionally — the returned node list and graph
both hold 2 nodes, exceeding the budget. -/
theorem c2_counterexample :
    ¬ ((build_graph (fun _ _ _ _ => []) [seedSciA, seedSciB] 2 1 []).2.length ≤ 1 ∧
       (build_graph (fun _ _ _ _ => []) [seedSciA, seedSciB] 2 1 []).1.nodes.length ≤ 1) := by
  decide

/-- C2 as amended: the node count of the finalized node list and graph
never exceeds `max(number of seeds, max_nodes)` — the expansion loop
respects the budget, but the seed loop is not subject to it. -/
theorem c2_budget_amended (oracle : Oracle) (seeds : List Seed)
    (rd maxN : Nat) (c0 : Cache) :
    (build_graph oracle seeds rd maxN c0).2.length ≤ max seeds.length maxN ∧
    (build_graph oracle seeds rd maxN c0).1.nodes.length ≤ max seeds.length maxN := by
  have hph := buildLoop_len oracle maxN (initFuel maxN (initState seeds rd c0))
    (initState seeds rd c0)
  have hinit := initState_len seeds rd c0
  have hwf := expandPhase_wf oracle seeds rd maxN c0
  have hst : (expandPhase oracle seeds rd maxN c0).nodes_map.length
      = (buildLoop oracle maxN (initFuel maxN (initState seeds rd c0))
          (initState seeds rd c0)).nodes_map.length := rfl
  constructor
  · show ((reconcile (expandPhase oracle seeds rd maxN c0).G
      (expandPhase oracle seeds rd maxN c0).nodes_map).map Prod.snd).length ≤ _
    rw [List.length_map, reconcile_length]
    omega
  · show (resolveCycles (expandPhase oracle seeds rd maxN c0).G).nodes.length ≤ _
    rw [resolveCycles_nodes, hwf.1]
    have hk : (alistKeys (expandPhase oracle seeds rd maxN c0).nodes_map).length
        = (expandPhase oracle seeds rd maxN c0).nodes_map.length := by
      simp [alistKeys]
    omega

/-- C4 as amended: as soon as the node count reaches `max_nodes`, the main
loop exits immediately — remaining queue entries are not popped, not
processed, and receive no further edges. -/
theorem c4_budget_stops_loop (oracle : Oracle) (maxN fuel : Nat)
    (s : BuildState) (h : s.nodes_map.length ≥ maxN) :
    buildLoop oracle maxN fuel s = s := by
  cases fuel with
  | zero => rfl
  | succ f =>
    rw [buildLoop]
    rcases hq : s.q with _ | ⟨⟨code, dr, cd⟩, rest⟩
    · rfl
    · dsimp only
      rw [if_pos h]

/-- A placeholder node for the C4 witness state. -/
def exNode : Node :=
  { code := "X", subject := "Sci", title := "X", description := ""
    difficulty_level := "base", objectives := [], prerequisites := []
    next_topics := [], keywords := [], estimated_hours := 1 }

/-- Witness for the amended C4: a state at the budget with a queued entry
is returned unchanged by the loop. -/
theorem c4_witness :
    ([("X", exNode)] : List (String × Node)).length ≥ 1 ∧
    buildLoop (fun _ _ _ _ => []) 1 5
      { G := ⟨["X"], []⟩, nodes_map := [("X", exNode)], processed := [],
        q := [("Y", 1, 0)], cache := [], expandedLog := [] } =
      { G := ⟨["X"], []⟩, nodes_map := [("X", exNode)], processed := [],
        q := [("Y", 1, 0)], cache := [], expandedLog := [] } :=
  ⟨by decide, c4_budget_stops_loop (fun _ _ _ _ => []) 1 5 _ (by decide)⟩

/-- Oracle for the C4 counterexample: A expands to subtopics B and C; B
would link back to A if it were ever processed. -/
def budgetOracle : Oracle := fun title _ _ _ =>
  if title = "A" then [some { emptyExp with subtopics := some ["B", "C"] }]
  else if title = "B" then [some { emptyExp with subtopics := some ["A"] }]
  else []

/-- Counterexample to C4: with `max_nodes = 2`, seed A's expansion creates
B and hits the budget; the loop then exits with B still queued — B is
never popped, never processed, and the edge B→A its expansion would have
added is absent.  The queue is not drained. -/
theorem c4_counterexample :
    (expandPhase budgetOracle [seedSciA] 3 2 []).q ≠ [] ∧
    "SCI_B" ∉ (expandPhase budgetOracle [seedSciA] 3 2 []).processed ∧
    hasEdge (expandPhase budgetOracle [seedSciA] 3 2 []).G "SCI_B" "SCI_A" = false := by
  decide

theorem removeClosingEdge_sublist (G : DiGraph) (c : List String) :
    (removeClosingEdge G c).edges.Sublist G.edges := by
  unfold removeClosingEdge removeEdge
  split
  · dsimp only
    split
    · exact List.filter_sublist _
    · exact List.Sublist.refl _
  · exact List.Sublist.refl _

theorem foldRemove_sublist (cs : List (List String)) :
    ∀ (G : DiGraph), (cs.foldl removeClosingEdge G).edges.Sublist G.edges := by
  induction cs with
  | nil => intro G; exact List.Sublist.refl _
  | cons c rest ih =>
    intro G
    rw [List.foldl_cons]
    exact (ih (removeClosingEdge G c)).trans (removeClosingEdge_sublist G c)

theorem resolveCycles_sublist (G : DiGraph) :
    (resolveCycles G).edges.Sublist G.edges := by
  unfold resolveCycles
  split
  · exact List.Sublist.refl _
  · exact foldRemove_sublist _ _

/-- C10: at most one edge per ordered node pair, with the relationship
fixed by the first insertion.  (1) A guarded insertion on an existing pair
is silently skipped, whatever the new relationship; (2) after the
expansion phase, and in the final (post-resolution) graph, edge keys are
pairwise distinct; (3) consequently a pair carries a single relationship
label; (4) edges present at any point of the expansion are still present
at its end (the first-inserted label persists). -/
theorem c10_edge_unique_first_label :
    (∀ (u v r : String) (s : BuildState),
      hasEdge s.G u v = true → edgeGuard u v r s = s) ∧
    (∀ (oracle : Oracle) (seeds : List Seed) (rd maxN : Nat) (c0 : Cache),
      ((expandPhase oracle seeds rd maxN c0).G.edges.map (fun e => (e.1, e.2.1))).Nodup ∧
      ((build_graph oracle seeds rd maxN c0).1.edges.map (fun e => (e.1, e.2.1))).Nodup) ∧
    (∀ (oracle : Oracle) (seeds : List Seed) (rd maxN : Nat) (c0 : Cache)
        (u v r r' : String),
      (u, v, r) ∈ (expandPhase oracle seeds rd maxN c0).G.edges →
      (u, v, r') ∈ (expandPhase oracle seeds rd maxN c0).G.edges → r = r') ∧
    (∀ (oracle : Oracle) (maxN fuel : Nat) (s : BuildState),
      WFState s → ∀ e ∈ s.G.edges, e ∈ (buildLoop oracle maxN fuel s).G.edges) := by
  refine ⟨?_, ?_, ?_, ?_⟩
  · intro u v r s h
    unfold edgeGuard
    rw [if_pos h]
  · intro oracle seeds rd maxN c0
    have h1 := (expandPhase_wf oracle seeds rd maxN c0).2.2.2.2
    refine ⟨h1, ?_⟩
    show ((resolveCycles (expandPhase oracle seeds rd maxN c0).G).edges.map
      (fun e => (e.1, e.2.1))).Nodup
    exact h1.sublist ((resolveCycles_sublist _).map _)
  · intro oracle seeds rd maxN c0 u v r r' h1 h2
    have hN := (expandPhase_wf oracle seeds rd maxN c0).2.2.2.2
    have := List.inj_on_of_nodup_map hN h1 h2 (by simp)
    simpa using congrArg (fun e => e.2.2) this
  · intro oracle maxN fuel s hwf e he
    exact ((buildLoop_wf oracle maxN fuel s hwf).2).2.1 e he

/-- A second placeholder node (key `Y`) for witness states. -/
def nodeY : Node := { exNode with code := "Y" }

/-- A small well-formed state with one `leads_to` edge. -/
def wfExState : BuildState :=
  { G := ⟨["X", "Y"], [("X", "Y", "leads_to")]⟩
    nodes_map := [("X", exNode), ("Y", nodeY)]
    processed := [], q := [], cache := [], expandedLog := [] }

/-- Witness for C10 at concrete inputs: a `prerequisite_for` insertion on
a pair already linked `leads_to` is a no-op; the budget example's one
edge has a unique label; an existing edge survives the loop. -/
theorem c10_witness :
    edgeGuard "X" "Y" "prerequisite_for" wfExState = wfExState ∧
    "leads_to" = "leads_to" ∧
    ("X", "Y", "leads_to") ∈
      (buildLoop (fun _ _ _ _ => []) 5 3 wfExState).G.edges :=
  ⟨c10_edge_unique_first_label.1 "X" "Y" "prerequisite_for" _ (by decide),
   c10_edge_unique_first_label.2.2.1 budgetOracle [seedSciA] 3 2 []
     "SCI_A" "SCI_B" "leads_to" "leads_to" (by decide) (by decide),
   c10_edge_unique_first_label.2.2.2 (fun _ _ _ _ => []) 5 3 wfExState
     ⟨by decide, by decide, by decide, by decide, by decide⟩
     ("X", "Y", "leads_to") (by decide)⟩

theorem edgeGuard_log_proc (u v r : String) (s : BuildState) :
    (edgeGuard u v r s).expandedLog = s.expandedLog ∧
    (edgeGuard u v r s).processed = s.processed := by
  unfold edgeGuard
  split <;> exact ⟨rfl, rfl⟩

theorem subStep_log_proc (code subject title childDiff : String) (expHours : Rat)
    (dr cd : Nat) (t : String) (s : BuildState) :
    (subStep code subject title childDiff expHours dr cd t s).expandedLog
      = s.expandedLog ∧
    (subStep code subject title childDiff expHours dr cd t s).processed
      = s.processed := by
  simp only [subStep]
  rcases hnew : alistGet s.nodes_map (generate_code subject t) with _ | nd0 <;>
    dsimp only <;> exact edgeGuard_log_proc _ _ _ _

theorem preStep_log_proc (code subject title childDiff : String)
    (dr cd : Nat) (t : String) (s : BuildState) :
    (preStep code subject title childDiff dr cd t s).1.expandedLog
      = s.expandedLog ∧
    (preStep code subject title childDiff dr cd t s).1.processed
      = s.processed := by
  simp only [preStep]
  rcases hnew : alistGet s.nodes_map (generate_code subject t) with _ | nd0 <;>
    dsimp only
  · by_cases hlev : childDiff ∈ DIFFICULTY_LEVELS
    · rw [if_pos hlev]
      exact edgeGuard_log_proc _ _ _ _
    · rw [if_neg hlev]
      exact ⟨rfl, rfl⟩
  · exact edgeGuard_log_proc _ _ _ _

theorem subLoop_log_proc (maxN : Nat) (code subject title childDiff : String)
    (expHours : Rat) (dr cd : Nat) (ts : List String) :
    ∀ (s : BuildState),
      (subLoop maxN code subject title childDiff expHours dr cd ts s).expandedLog
        = s.expandedLog ∧
      (subLoop maxN code subject title childDiff expHours dr cd ts s).processed
        = s.processed := by
  induction ts with
  | nil => intro s; exact ⟨rfl, rfl⟩
  | cons t rest ih =>
    intro s
    rw [subLoop]
    by_cases hb : s.nodes_map.length ≥ maxN
    · rw [if_pos hb]; exact ⟨rfl, rfl⟩
    · rw [if_neg hb]
      obtain ⟨h1, h2⟩ := ih (subStep code subject title childDiff expHours dr cd t s)
      obtain ⟨h3, h4⟩ := subStep_log_proc code subject title childDiff expHours dr cd t s
      exact ⟨h1.trans h3, h2.trans h4⟩

theorem preLoop_log_proc (maxN : Nat) (code subject title childDiff : String)
    (dr cd : Nat) (ts : List String) :
    ∀ (s : BuildState),
      (preLoop maxN code subject title childDiff dr cd ts s).expandedLog
        = s.expandedLog ∧
      (preLoop maxN code subject title childDiff dr cd ts s).processed
        = s.processed := by
  induction ts with
  | nil => intro s; exact ⟨rfl, rfl⟩
  | cons t rest ih =>
    intro s
    rw [preLoop]
    by_cases hb : s.nodes_map.length ≥ maxN
    · rw [if_pos hb]; exact ⟨rfl, rfl⟩
    · rw [if_neg hb]
      obtain ⟨h3, h4⟩ := preStep_log_proc code subject title childDiff dr cd t s
      rcases hps : preStep code subject title childDiff dr cd t s with ⟨s1, flag⟩
      rw [hps] at h3 h4
      cases flag
      · exact ⟨h3, h4⟩
      · obtain ⟨h1, h2⟩ := ih s1
        exact ⟨h1.trans h3, h2.trans h4⟩

theorem stepEntry_log_proc (oracle : Oracle) (maxN : Nat) (code : String)
    (dr cd : Nat) (s : BuildState) :
    ((stepEntry oracle maxN code dr cd s).expandedLog = s.expandedLog ∨
     (stepEntry oracle maxN code dr cd s).expandedLog = s.expandedLog ++ [code]) ∧
    (stepEntry oracle maxN code dr cd s).processed = s.processed := by
  simp only [stepEntry]
  rcases hnode : alistGet s.nodes_map code with _ | node <;> dsimp only
  · exact ⟨Or.inl rfl, rfl⟩
  · rcases hexp : expand_topic s.cache node.title node.subject node.difficulty_level
        (oracle node.title node.subject node.difficulty_level (cd + 1)) 2 with
      _ | res <;> dsimp only
    · exact ⟨Or.inr rfl, rfl⟩
    · obtain ⟨expansion, cache', ncalls⟩ := res
      dsimp only
      obtain ⟨h1, h2⟩ := preLoop_log_proc maxN code node.subject node.title
        (expansion.difficulty_level.getD node.difficulty_level) dr cd
        (expansion.prerequisites.getD [])
        (subLoop maxN code node.subject node.title
          (expansion.difficulty_level.getD node.difficulty_level)
          (expansion.estimated_hours.getD 2) dr cd (expansion.subtopics.getD [])
          { s with
            expandedLog := s.expandedLog ++ [code]
            cache := cache'
            nodes_map := alistSet s.nodes_map code
              { node with
                objectives := expansion.objectives.getD node.objectives
                keywords := expansion.keywords.getD node.keywords
                estimated_hours := expansion.estimated_hours.getD node.estimated_hours } })
      obtain ⟨h3, h4⟩ := subLoop_log_proc maxN code node.subject node.title
        (expansion.difficulty_level.getD node.difficulty_level)
        (expansion.estimated_hours.getD 2) dr cd (expansion.subtopics.getD [])
        { s with
          expandedLog := s.expandedLog ++ [code]
          cache := cache'
          nodes_map := alistSet s.nodes_map code
            { node with
              objectives := expansion.objectives.getD node.objectives
              keywords := expansion.keywords.getD node.keywords
              estimated_hours := expansion.estimated_hours.getD node.estimated_hours } }
      refine ⟨Or.inr ?_, ?_⟩
      · exact h1.trans h3
      · exact h2.trans h4

theorem buildLoop_log (oracle : Oracle) (maxN : Nat) (fuel : Nat) :
    ∀ (s : BuildState), s.expandedLog.Nodup →
      (∀ c ∈ s.expandedLog, c ∈ s.processed) →
      (buildLoop oracle maxN fuel s).expandedLog.Nodup ∧
      (∀ c ∈ (buildLoop oracle maxN fuel s).expandedLog,
        c ∈ (buildLoop oracle maxN fuel s).processed) := by
  induction fuel with
  | zero => intro s h1 h2; exact ⟨h1, h2⟩
  | succ f ih =>
    intro s h1 h2
    rw [buildLoop]
    rcases hq : s.q with _ | ⟨⟨code, dr, cd⟩, rest⟩ <;> dsimp only
    · exact ⟨h1, h2⟩
    · by_cases hb : s.nodes_map.length ≥ maxN
      · rw [if_pos hb]
        exact ⟨h1, h2⟩
      · rw [if_neg hb]
        by_cases hskip : code ∈ s.processed ∨ dr = 0
        · rw [if_pos hskip]
          exact ih { s with q := rest } h1 h2
        · rw [if_neg hskip]
          have hcp : code ∉ s.processed := fun hc => hskip (Or.inl hc)
          have hcl : code ∉ s.expandedLog := fun hc => hcp (h2 code hc)
          obtain ⟨hlog, hproc⟩ := stepEntry_log_proc oracle maxN code dr cd
            { s with q := rest, processed := s.processed ++ [code] }
          refine ih _ ?_ ?_
          · rcases hlog with hlog | hlog <;> rw [hlog]
            · exact h1
            · simp [List.nodup_append, h1, hcl]
          · intro c hc
            rw [hproc]
            rcases hlog with hlog | hlog <;> rw [hlog] at hc
            · exact List.mem_append_left _ (h2 c hc)
            · rcases List.mem_append.mp hc with hc | hc
              · exact List.mem_append_left _ (h2 c hc)
              · simp at hc
                rw [hc]
                exact List.mem_append_right _ (by simp)

theorem reconcile_keys (G : DiGraph) (nm : List (String × Node)) :
    alistKeys (reconcile G nm) = alistKeys nm := by
  unfold reconcile
  have : ∀ (l : List String) (nm : List (String × Node)),
      alistKeys (l.foldl (fun nm code => reconcileNode G nm code) nm) = alistKeys nm := by
    intro l
    induction l with
    | nil => intro nm; rfl
    | cons c rest ih =>
      intro nm
      rw [List.foldl_cons, ih]
      unfold reconcileNode
      rcases h : alistGet nm c with _ | node
      · rfl
      · dsimp only
        exact alistKeys_set_mem _ _ _
          ((mem_alistKeys_iff _ _).mpr ⟨node, mem_of_alistGet_eq_some h⟩)
  exact this G.nodes nm

theorem reconcileTransform_code (G : DiGraph) (c : String) (node : Node) :
    (reconcileTransform G c node).code = node.code := by
  unfold reconcileTransform
  dsimp only
  split <;> rfl

theorem reconcile_codes (G : DiGraph) (nm : List (String × Node))
    (h : ∀ p ∈ nm, (p.2 : Node).code = p.1) :
    ∀ p ∈ reconcile G nm, (p.2 : Node).code = p.1 := by
  unfold reconcile
  have : ∀ (l : List String) (nm : List (String × Node)),
      (∀ p ∈ nm, (p.2 : Node).code = p.1) →
      ∀ p ∈ l.foldl (fun nm code => reconcileNode G nm code) nm,
        (p.2 : Node).code = p.1 := by
    intro l
    induction l with
    | nil => intro nm h p hp; exact h p hp
    | cons c rest ih =>
      intro nm h p hp
      rw [List.foldl_cons] at hp
      refine ih _ ?_ p hp
      intro q hq
      unfold reconcileNode at hq
      rcases hget : alistGet nm c with _ | node
      · rw [hget] at hq
        exact h q hq
      · rw [hget] at hq
        dsimp only at hq
        rcases mem_alistSet hq with hq | hq
        · exact h q hq
        · rw [hq]
          have := h (c, node) (mem_of_alistGet_eq_some hget)
          simp at this
          show (reconcileTransform G c node).code = c
          rw [reconcileTransform_code]
          exact this
  exact this G.nodes nm h

/-- C9: one node's oracle failure never aborts the run.  (1) Every code
ever present in the node map survives to the final node list (a failed
node is retained with whatever data it had, never deleted); (2) node-map
keys are monotone across the loop; (3) when the popped node's expansion
exhausts its retries, the loop continues on the remaining queue with the
node map, graph and cache untouched — only `processed` (and the
instrumentation log) record the failed code, so it is never re-expanded;
(4) over a whole run each code is expanded at most once. -/
theorem c9_failure_isolated :
    (∀ (oracle : Oracle) (seeds : List Seed) (rd maxN : Nat) (c0 : Cache)
        (k : String),
      k ∈ alistKeys (expandPhase oracle seeds rd maxN c0).nodes_map →
      ∃ n ∈ (build_graph oracle seeds rd maxN c0).2, n.code = k) ∧
    (∀ (oracle : Oracle) (maxN fuel : Nat) (s : BuildState) (k : String),
      WFState s → k ∈ alistKeys s.nodes_map →
      k ∈ alistKeys (buildLoop oracle maxN fuel s).nodes_map) ∧
    (∀ (oracle : Oracle) (maxN fuel : Nat) (s : BuildState)
        (code : String) (dr cd : Nat) (rest : List (String × Nat × Nat))
        (node : Node),
      s.q = (code, dr, cd) :: rest →
      ¬ s.nodes_map.length ≥ maxN →
      code ∉ s.processed → ¬ dr = 0 →
      alistGet s.nodes_map code = some node →
      expand_topic s.cache node.title node.subject node.difficulty_level
        (oracle node.title node.subject node.difficulty_level (cd + 1)) 2 = none →
      buildLoop oracle maxN (fuel + 1) s
        = buildLoop oracle maxN fuel
            { s with q := rest, processed := s.processed ++ [code],
                     expandedLog := s.expandedLog ++ [code] }) ∧
    (∀ (oracle : Oracle) (seeds : List Seed) (rd maxN : Nat) (c0 : Cache),
      (expandPhase oracle seeds rd maxN c0).expandedLog.Nodup) := by
  refine ⟨?_, ?_, ?_, ?_⟩
  · intro oracle seeds rd maxN c0 k hk
    have hwf := expandPhase_wf oracle seeds rd maxN c0
    have hk' : k ∈ alistKeys (reconcile (expandPhase oracle seeds rd maxN c0).G
        (expandPhase oracle seeds rd maxN c0).nodes_map) := by
      rw [reconcile_keys]
      exact hk
    obtain ⟨v, hv⟩ := (mem_alistKeys_iff _ _).mp hk'
    have hcode := reconcile_codes _ _ hwf.2.2.1 (k, v) hv
    refine ⟨v, ?_, ?_⟩
    · show v ∈ (reconcile (expandPhase oracle seeds rd maxN c0).G
        (expandPhase oracle seeds rd maxN c0).nodes_map).map Prod.snd
      exact List.mem_map.mpr ⟨(k, v), hv, rfl⟩
    · simpa using hcode
  · intro oracle maxN fuel s k hwf hk
    exact ((buildLoop_wf oracle maxN fuel s hwf).2).1 k hk
  · intro oracle maxN fuel s code dr cd rest node hq hb hcp hdr hnode hexp
    conv_lhs => rw [buildLoop]
    rw [hq]
    dsimp only
    rw [if_neg hb, if_neg (by
      intro h
      rcases h with h | h
      · exact hcp h
      · exact hdr h)]
    congr 1
    simp only [stepEntry]
    rw [hnode]
    dsimp only
    rw [hexp]
  · intro oracle seeds rd maxN c0
    have hinit : ∀ (l : List Seed) (s : BuildState),
        (l.foldl
          (fun s seed =>
            let code :=
              match seed.code with
              | some c => if c = "" then generate_code seed.subject seed.title else c
              | none => generate_code seed.subject seed.title
            { s with
              nodes_map := alistSet s.nodes_map code (seedNode seed code)
              G := addNode s.G code }) s).expandedLog = s.expandedLog := by
      intro l
      induction l with
      | nil => intro s; rfl
      | cons seed rest ih => intro s; exact ih _
    exact (buildLoop_log oracle maxN _ _
      (by show (initState seeds rd c0).expandedLog.Nodup
          unfold initState
          rw [hinit]
          simp)
      (by show ∀ c ∈ (initState seeds rd c0).expandedLog, c ∈ (initState seeds rd c0).processed
          unfold initState
          rw [hinit]
          simp)).1

/-- A state about to pop node `X`, whose expansion will fail (the oracle
yields no successful attempt). -/
def failState : BuildState :=
  { G := ⟨["X"], []⟩, nodes_map := [("X", exNode)], processed := [],
    q := [("X", 1, 0)], cache := [], expandedLog := [] }

/-- Witness for C9 at concrete inputs. -/
theorem c9_witness :
    (∃ n ∈ (build_graph budgetOracle [seedSciA] 3 2 []).2, n.code = "SCI_B") ∧
    "X" ∈ alistKeys (buildLoop (fun _ _ _ _ => []) 5 3 wfExState).nodes_map ∧
    (buildLoop (fun _ _ _ _ => []) 5 1 failState
      = buildLoop (fun _ _ _ _ => []) 5 0
          { failState with q := [], processed := [] ++ ["X"],
                           expandedLog := [] ++ ["X"] }) ∧
    (expandPhase budgetOracle [seedSciA] 3 2 []).expandedLog.Nodup :=
  ⟨c9_failure_isolated.1 budgetOracle [seedSciA] 3 2 [] "SCI_B" (by decide),
   c9_failure_isolated.2.1 (fun _ _ _ _ => []) 5 3 wfExState "X"
     ⟨by decide, by decide, by decide, by decide, by decide⟩ (by decide),
   c9_failure_isolated.2.2.1 (fun _ _ _ _ => []) 5 0 failState "X" 1 0 [] exNode
     rfl (by decide) (by decide) (by decide) rfl rfl,
   c9_failure_isolated.2.2.2 budgetOracle [seedSciA] 3 2 []⟩

theorem reconcileTransform_next (G : DiGraph) (c : String) (node : Node) :
    (reconcileTransform G c node).next_topics = outTargets G c := by
  unfold reconcileTransform
  dsimp only
  split <;> rfl

theorem reconcileTransform_prereq_mem (G : DiGraph) (c : String) (node : Node)
    {x : String} (hx : x ∈ prereqSources G c) :
    x ∈ (reconcileTransform G c node).prerequisites := by
  unfold reconcileTransform
  dsimp only
  rw [if_pos (List.ne_nil_of_mem hx)]
  show x ∈ (node.prerequisites ++ prereqSources G c).dedup
  rw [List.mem_dedup]
  exact List.mem_append_right _ hx

theorem prereqSources_sub {G' G : DiGraph}
    (h : ∀ e ∈ G'.edges, e ∈ G.edges) (k x : String)
    (hx : x ∈ prereqSources G' k) : x ∈ prereqSources G k := by
  unfold prereqSources at hx ⊢
  rcases List.mem_filterMap.mp hx with ⟨e, he, hee⟩
  exact List.mem_filterMap.mpr ⟨e, h e he, hee⟩

theorem reconcileNode_get_ne (G : DiGraph) (nm : List (String × Node))
    (c k : String) (h : c ≠ k) :
    alistGet (reconcileNode G nm c) k = alistGet nm k := by
  unfold reconcileNode
  rcases hget : alistGet nm c with _ | node
  · rfl
  · exact alistGet_set_ne _ _ _ _ h

theorem reconcile_fold_get_ne (G : DiGraph) (l : List String) :
    ∀ (nm : List (String × Node)) (k : String), k ∉ l →
      alistGet (l.foldl (fun nm c => reconcileNode G nm c) nm) k = alistGet nm k := by
  induction l with
  | nil => intro nm k _; rfl
  | cons c rest ih =>
    intro nm k hk
    rw [List.foldl_cons, ih _ _ (fun h => hk (List.mem_cons_of_mem _ h))]
    exact reconcileNode_get_ne G nm c k (fun h => hk (by rw [h]; exact List.mem_cons_self _ _))

theorem reconcile_fold_get (G : DiGraph) (l : List String) :
    ∀ (nm : List (String × Node)), l.Nodup →
      ∀ (k : String), k ∈ l → ∀ (old : Node), alistGet nm k = some old →
        alistGet (l.foldl (fun nm c => reconcileNode G nm c) nm) k
          = some (reconcileTransform G k old) := by
  induction l with
  | nil => intro nm _ k hk; simp at hk
  | cons c rest ih =>
    intro nm hN k hk old hget
    rw [List.nodup_cons] at hN
    rw [List.foldl_cons]
    rcases List.mem_cons.mp hk with hk | hk
    · subst hk
      rw [reconcile_fold_get_ne G rest _ _ hN.1]
      unfold reconcileNode
      rw [hget]
      exact alistGet_set_self _ _ _
    · have hne : c ≠ k := fun h => hN.1 (h ▸ hk)
      refine ih _ hN.2 k hk old ?_
      rw [reconcileNode_get_ne G nm c k hne]
      exact hget

theorem reconcile_get (G : DiGraph) (nm : List (String × Node))
    (hN : G.nodes.Nodup) (k : String) (hk : k ∈ G.nodes) (old : Node)
    (hget : alistGet nm k = some old) :
    alistGet (reconcile G nm) k = some (reconcileTransform G k old) :=
  reconcile_fold_get G G.nodes nm hN k hk old hget

/-- The claim C1 property: for every finalized node, `next_topics` equals
(as a set) exactly its `leads_to` out-neighbors in the final graph, and
`prerequisites` contains its `prerequisite_for` in-neighbors there. -/
def c1Prop (G : DiGraph) (ns : List Node) : Prop :=
  ∀ n ∈ ns,
    (∀ x ∈ n.next_topics, x ∈ leadsToTargets G n.code) ∧
    (∀ x ∈ leadsToTargets G n.code, x ∈ n.next_topics) ∧
    (∀ x ∈ prereqSources G n.code, x ∈ n.prerequisites)

instance (G : DiGraph) (ns : List Node) : Decidable (c1Prop G ns) := by
  unfold c1Prop
  infer_instance

/-- Oracle for the C1 counterexample: A's expansion yields subtopic B and
prerequisite P; B's expansion lists A as a subtopic (forming a 2-cycle
with A); P's expansion fails. -/
def exOracleC1 : Oracle := fun title _ _ _ =>
  if title = "A" then
    [some { emptyExp with subtopics := some ["B"], prerequisites := some ["P"] }]
  else if title = "B" then [some { emptyExp with subtopics := some ["A"] }]
  else []

/-- Counterexample to C1: in the finalized output, node P has
`next_topics = [SCI_A]` although its only out-edge is `prerequisite_for`
(so its `leads_to` out-neighborhood is empty), and node B keeps
`next_topics = [SCI_A]` although the closing edge B→A was removed by the
cycle resolver after reconciliation. -/
theorem c1_counterexample :
    ¬ c1Prop (build_graph exOracleC1 [seedSciA] 2 10 []).1
        (build_graph exOracleC1 [seedSciA] 2 10 []).2 := by
  decide

/-- C1 as amended: for every finalized node, `next_topics` equals the
targets of ALL of its out-edges (either relationship) in the graph as it
stood at reconciliation time — before cycle removal — and `prerequisites`
contains its `prerequisite_for` in-neighbors of that graph; the
`prerequisites ⊇` half also holds in the post-resolution graph, since
resolution only removes edges. -/
theorem c1_reconcile_amended (oracle : Oracle) (seeds : List Seed)
    (rd maxN : Nat) (c0 : Cache) :
    ∀ n ∈ (build_graph oracle seeds rd maxN c0).2,
      n.next_topics = outTargets (expandPhase oracle seeds rd maxN c0).G n.code ∧
      (∀ x ∈ prereqSources (expandPhase oracle seeds rd maxN c0).G n.code,
        x ∈ n.prerequisites) ∧
      (∀ x ∈ prereqSources (build_graph oracle seeds rd maxN c0).1 n.code,
        x ∈ n.prerequisites) := by
  intro n hn
  have hwf := expandPhase_wf oracle seeds rd maxN c0
  have hn' : n ∈ (reconcile (expandPhase oracle seeds rd maxN c0).G
      (expandPhase oracle seeds rd maxN c0).nodes_map).map Prod.snd := hn
  obtain ⟨k, hkmem⟩ := snd_mem_of_mem_alist hn'
  have hkeysN : (alistKeys (reconcile (expandPhase oracle seeds rd maxN c0).G
      (expandPhase oracle seeds rd maxN c0).nodes_map)).Nodup := by
    rw [reconcile_keys]
    exact hwf.2.1
  have hget' := alistGet_of_mem hkeysN hkmem
  have hkkeys : k ∈ alistKeys (expandPhase oracle seeds rd maxN c0).nodes_map := by
    rw [← reconcile_keys (expandPhase oracle seeds rd maxN c0).G]
    exact (mem_alistKeys_iff _ _).mpr ⟨n, hkmem⟩
  obtain ⟨old, hold⟩ := (mem_alistKeys_iff _ _).mp hkkeys
  have holdget := alistGet_of_mem hwf.2.1 hold
  have hkG : k ∈ (expandPhase oracle seeds rd maxN c0).G.nodes := by
    rw [hwf.1]; exact hkkeys
  have hGN : (expandPhase oracle seeds rd maxN c0).G.nodes.Nodup := by
    rw [hwf.1]; exact hwf.2.1
  have htr := reconcile_get (expandPhase oracle seeds rd maxN c0).G
    (expandPhase oracle seeds rd maxN c0).nodes_map hGN k hkG old holdget
  have hn_eq : n = reconcileTransform (expandPhase oracle seeds rd maxN c0).G k old :=
    Option.some.inj (hget'.symm.trans htr)
  have hcode : n.code = k := by
    have := reconcile_codes (expandPhase oracle seeds rd maxN c0).G
      (expandPhase oracle seeds rd maxN c0).nodes_map hwf.2.2.1 (k, n) hkmem
    simpa using this
  rw [hcode]
  refine ⟨?_, ?_, ?_⟩
  · rw [hn_eq]
    exact reconcileTransform_next _ _ _
  · intro x hx
    rw [hn_eq]
    exact reconcileTransform_prereq_mem _ _ _ hx
  · intro x hx
    rw [hn_eq]
    refine reconcileTransform_prereq_mem _ _ _ ?_
    refine prereqSources_sub ?_ k x hx
    intro e he
    exact (resolveCycles_sublist (expandPhase oracle seeds rd maxN c0).G).mem he

/-- The head of the finalized node list of the budget example, used to
instantiate the amended C1. -/
def c1wNode : Node := ((build_graph budgetOracle [seedSciA] 3 2 []).2).headD exNode

/-- Witness for the amended C1 at a concrete run. -/
theorem c1_witness :
    c1wNode.next_topics
      = outTargets (expandPhase budgetOracle [seedSciA] 3 2 []).G c1wNode.code ∧
    (∀ x ∈ prereqSources (expandPhase budgetOracle [seedSciA] 3 2 []).G c1wNode.code,
      x ∈ c1wNode.prerequisites) ∧
    (∀ x ∈ prereqSources (build_graph budgetOracle [seedSciA] 3 2 []).1 c1wNode.code,
      x ∈ c1wNode.prerequisites) :=
  c1_reconcile_amended budgetOracle [seedSciA] 3 2 [] c1wNode (by decide)

theorem perm_of_mem_insertEverywhere {α : Type} {a : α} {p c : List α}
    (h : c ∈ insertEverywhere a p) : c.Perm (a :: p) := by
  induction p generalizing c with
  | nil =>
    simp [insertEverywhere] at h
    rw [h]
  | cons x xs ih =>
    simp only [insertEverywhere, List.mem_cons, List.mem_map] at h
    rcases h with h | ⟨l, hl, hc⟩
    · rw [h]
    · rw [← hc]
      exact (List.Perm.cons x (ih hl)).trans (List.Perm.swap a x xs)

theorem mem_insertEverywhere_append {α : Type} (a : α) (c₁ c₂ : List α) :
    (c₁ ++ a :: c₂) ∈ insertEverywhere a (c₁ ++ c₂) := by
  induction c₁ with
  | nil =>
    cases c₂ with
    | nil => simp [insertEverywhere]
    | cons y ys => simp [insertEverywhere]
  | cons x rest ih =>
    simp only [List.cons_append, insertEverywhere, List.mem_cons, List.mem_map]
    right
    exact ⟨rest ++ a :: c₂, ih, rfl⟩

theorem mem_perms {α : Type} {l c : List α} : c ∈ perms l ↔ c.Perm l := by
  induction l generalizing c with
  | nil =>
    simp [perms]
  | cons x xs ih =>
    simp only [perms, List.mem_flatMap]
    constructor
    · rintro ⟨p, hp, hc⟩
      exact (perm_of_mem_insertEverywhere hc).trans (List.Perm.cons x (ih.mp hp))
    · intro hc
      have hx : x ∈ c := hc.mem_iff.mpr (List.mem_cons_self x xs)
      obtain ⟨c₁, c₂, hsplit⟩ := List.append_of_mem hx
      subst hsplit
      refine ⟨c₁ ++ c₂, ih.mpr ?_, mem_insertEverywhere_append x c₁ c₂⟩
      exact (List.perm_middle.symm.trans hc).cons_inv

theorem mem_simpleCycles {G : DiGraph} {c : List String} :
    c ∈ simpleCycles G ↔
      c.Nodup ∧ isCycleList G c = true ∧ canonicalStart G c = true ∧
        ∀ x ∈ c, x ∈ G.nodes := by
  unfold simpleCycles
  rw [List.mem_filter, List.mem_flatMap]
  constructor
  · rintro ⟨⟨l, hl, hc⟩, hpred⟩
    rw [List.mem_sublists] at hl
    have hperm : c.Perm l := mem_perms.mp hc
    simp only [decide_eq_true_eq] at hpred
    refine ⟨hpred.1, hpred.2.1, hpred.2.2, ?_⟩
    intro x hx
    exact hl.subset (hperm.subset hx)
  · rintro ⟨hnd, hcyc, hcan, hmem⟩
    refine ⟨?_, by simp only [decide_eq_true_eq]; exact ⟨hnd, hcyc, hcan⟩⟩
    obtain ⟨l, hlp, hls⟩ := hnd.subperm (fun x hx => hmem x hx)
    exact ⟨l, List.mem_sublists.mpr hls, mem_perms.mpr hlp.symm⟩

theorem zip_last_mem {α β : Type} :
    ∀ (l1 : List α) (l2 : List β) (a : α) (b : β),
      l1.getLast? = some a → l2.getLast? = some b → l1.length = l2.length →
      (a, b) ∈ l1.zip l2 := by
  intro l1
  induction l1 with
  | nil => intro l2 a b h1 _ _; simp at h1
  | cons x xs ih =>
    intro l2 a b h1 h2 hlen
    cases l2 with
    | nil => simp at hlen
    | cons y ys =>
      cases xs with
      | nil =>
        cases ys with
        | nil =>
          simp at h1 h2
          simp [h1, h2]
        | cons y' ys' => simp at hlen
      | cons x' xs' =>
        cases ys with
        | nil => simp at hlen
        | cons y' ys' =>
          rw [List.getLast?_cons_cons] at h1 h2
          simp only [List.zip_cons_cons]
          exact List.mem_cons_of_mem _
            (ih (y' :: ys') a b h1 h2 (by simpa using hlen))

theorem isCycleList_closing {G : DiGraph} {c : List String}
    (h : isCycleList G c = true) :
    hasEdge G (c.getLast?.getD "") (c.headD "") = true := by
  match c with
  | [] => simp [isCycleList] at h
  | v :: rest =>
    unfold isCycleList at h
    rw [List.all_eq_true] at h
    have hlast1 : (v :: rest).getLast? = some ((v :: rest).getLast (by simp)) :=
      List.getLast?_eq_getLast _ _
    have hlast2 : (rest ++ [v]).getLast? = some v := by
      rw [List.getLast?_concat]
    have hlen : (v :: rest).length = (rest ++ [v]).length := by simp
    have hmem := zip_last_mem (v :: rest) (rest ++ [v])
      ((v :: rest).getLast (by simp)) v hlast1 hlast2 hlen
    have := h _ hmem
    simp only [decide_eq_true_eq] at this
    rw [hlast1]
    simpa using this

theorem isCycleList_mono {G' G : DiGraph} {c : List String}
    (hsub : ∀ e ∈ G'.edges, e ∈ G.edges) (h : isCycleList G' c = true) :
    isCycleList G c = true := by
  match c with
  | [] => simp [isCycleList] at h
  | v :: rest =>
    unfold isCycleList at h ⊢
    rw [List.all_eq_true] at h ⊢
    intro p hp
    have := h p hp
    simp only [decide_eq_true_eq] at this ⊢
    rw [hasEdge_iff] at this ⊢
    obtain ⟨r, hr⟩ := this
    exact ⟨r, hsub _ hr⟩

theorem canonicalStart_congr {G' G : DiGraph} (h : G'.nodes = G.nodes)
    (c : List String) : canonicalStart G' c = canonicalStart G c := by
  unfold canonicalStart
  cases c with
  | nil => rfl
  | cons v rest => rw [h]

theorem removeEdge_not_has (G : DiGraph) (u v : String) :
    hasEdge (removeEdge G u v) u v = false := by
  unfold hasEdge removeEdge
  rw [Bool.eq_false_iff]
  intro hc
  rw [List.any_eq_true] at hc
  obtain ⟨e, he, hp⟩ := hc
  simp only [List.mem_filter] at he
  simp only [decide_eq_true_eq] at hp
  have := he.2
  simp only [decide_eq_true_eq] at this
  exact this hp

theorem foldRemove_nodes (cs : List (List String)) :
    ∀ (G : DiGraph), (cs.foldl removeClosingEdge G).nodes = G.nodes := by
  induction cs with
  | nil => intro G; rfl
  | cons c rest ih =>
    intro G
    rw [List.foldl_cons, ih, removeClosingEdge_nodes]

theorem foldRemove_keeps_absent (cs : List (List String)) (G : DiGraph)
    (u v : String) (h : hasEdge G u v = false) :
    hasEdge (cs.foldl removeClosingEdge G) u v = false := by
  rw [Bool.eq_false_iff] at h ⊢
  intro hc
  apply h
  rw [hasEdge_iff] at hc ⊢
  obtain ⟨r, hr⟩ := hc
  exact ⟨r, (foldRemove_sublist cs G).subset hr⟩

theorem foldRemove_closing (cs : List (List String)) :
    ∀ (G : DiGraph) (c : List String), c ∈ cs → 1 < c.length →
      hasEdge (cs.foldl removeClosingEdge G) (c.getLast?.getD "") (c.headD "")
        = false := by
  induction cs with
  | nil => intro G c hc; simp at hc
  | cons c0 rest ih =>
    intro G c hc hlen
    rw [List.foldl_cons]
    rcases List.mem_cons.mp hc with hc | hc
    · subst hc
      apply foldRemove_keeps_absent
      unfold removeClosingEdge
      rw [if_pos hlen]
      dsimp only
      by_cases hE : hasEdge G (c.getLast?.getD "") (c.headD "") = true
      · rw [if_pos hE]
        exact removeEdge_not_has G _ _
      · rw [if_neg hE]
        exact Bool.not_eq_true _ ▸ (Bool.eq_false_iff.mpr (fun h => hE h))
    · exact ih _ c hc hlen

/-- C3 as amended: after the cycle-resolution pass every remaining simple
cycle is a self-loop (length 1).  The pass removes the closing edge of
every enumerated simple cycle of length ≥ 2 — also under overlapping
cycles — but the `len(cycle) > 1` guard skips self-loops, which therefore
survive.  Stated for the resolver on any graph, and for the graph
`build_graph` returns. -/
theorem c3_resolution_leaves_selfloops :
    (∀ (G : DiGraph), ∀ c ∈ simpleCycles (resolveCycles G), c.length = 1) ∧
    (∀ (oracle : Oracle) (seeds : List Seed) (rd maxN : Nat) (c0 : Cache),
      ∀ c ∈ simpleCycles (build_graph oracle seeds rd maxN c0).1, c.length = 1) := by
  have h1 : ∀ (G : DiGraph), ∀ c ∈ simpleCycles (resolveCycles G), c.length = 1 := by
    intro G c hc
    unfold resolveCycles at hc
    split at hc
    next hdag =>
      unfold is_directed_acyclic_graph at hdag
      have hempty : simpleCycles G = [] := of_decide_eq_true hdag
      rw [hempty] at hc
      simp at hc
    next hdag =>
      by_contra hlen1
      obtain ⟨hnd, hcyc, hcan, hmem⟩ := mem_simpleCycles.mp hc
      have hlen : 1 < c.length := by
        match c with
        | [] => simp [isCycleList] at hcyc
        | [v] => exact absurd rfl hlen1
        | v :: w :: t => simp
      have hnodes := foldRemove_nodes (simpleCycles G) G
      have hsubE : ∀ e ∈ ((simpleCycles G).foldl removeClosingEdge G).edges,
          e ∈ G.edges := fun e he => (foldRemove_sublist _ _).subset he
      have hcG : c ∈ simpleCycles G := by
        refine mem_simpleCycles.mpr ⟨hnd, isCycleList_mono hsubE hcyc, ?_, ?_⟩
        · rw [← canonicalStart_congr hnodes c]
          exact hcan
        · intro x hx
          rw [← hnodes]
          exact hmem x hx
      have habs := foldRemove_closing (simpleCycles G) G c hcG hlen
      have hhas := isCycleList_closing hcyc
      simp only [List.headD_eq_head?] at habs hhas
      simp [habs] at hhas
  refine ⟨h1, ?_⟩
  intro oracle seeds rd maxN c0 c hc
  exact h1 (expandPhase oracle seeds rd maxN c0).G c hc

/-- Oracle for the C3 counterexample: A lists itself as a subtopic,
creating a self-loop. -/
def selfOracle : Oracle := fun title _ _ _ =>
  if title = "A" then [some { emptyExp with subtopics := some ["A"] }]
  else []

/-- Counterexample to C3: the self-loop SCI_A→SCI_A survives the
cycle-resolution pass (the resolver removes an edge only from cycles with
`len(cycle) > 1`), so the returned graph is still cyclic. -/
theorem c3_counterexample :
    is_directed_acyclic_graph (build_graph selfOracle [seedSciA] 2 10 []).1 = false ∧
    hasEdge (build_graph selfOracle [seedSciA] 2 10 []).1 "SCI_A" "SCI_A" = true := by
  constructor <;> decide

/-- An adversarial graph with two overlapping cycles through `a`-`b`-`c`
and a self-loop at `a`. -/
def overlapGraph : DiGraph :=
  ⟨["a", "b", "c"],
   [("a", "b", "leads_to"), ("b", "a", "leads_to"), ("b", "c", "leads_to"),
    ("c", "a", "leads_to"), ("a", "a", "leads_to")]⟩

/-- Witness for the amended C3 at concrete inputs: the self-loop cycles
surviving resolution in the overlapping-cycles graph and in the concrete
`build_graph` run both have length 1. -/
theorem c3_witness :
    (["a"] : List String).length = 1 ∧
    (["SCI_A"] : List String).length = 1 ∧
    (["a"] : List String) ∈ simpleCycles (resolveCycles overlapGraph) ∧
    (["SCI_A"] : List String) ∈ simpleCycles (build_graph selfOracle [seedSciA] 2 10 []).1 :=
  ⟨c3_resolution_leaves_selfloops.1 overlapGraph ["a"] (by decide),
   c3_resolution_leaves_selfloops.2 selfOracle [seedSciA] 2 10 [] ["SCI_A"] (by decide),
   by decide, by decide⟩
